import Mathlib

/-!
# Verification of the attendance derivation engine and its parsers

This file gives a shallow embedding, in Lean, of the algorithmic core of the
masala-house-payroll repository:

* the civil-calendar arithmetic used by `AttendanceService.calculateUserAttendance`
  (JavaScript `Date` month-start / month-end / add-one-day arithmetic on civil
  dates, modelled by `CivilDate`, `daysInMonth`, `nextDay` and the rata-die
  rank `rata`);
* the per-day derivation `AttendanceService.calculateDailyAttendance`;
* the per-user derivation `AttendanceService.calculateUserAttendance` with its
  statistics accumulation loop;
* the punch-log line parser `DatFileParser.parseLine` (together with faithful
  models of the JavaScript builtins it relies on: `String.prototype.split` on
  the separator regex, `parseInt`, and `new Date` on the device timestamp
  layout);
* the binary name-directory parser `UserDataParser.parse` / `parseRecord`.

Timestamps are everywhere rendered in one fixed civil timezone (IST) by the
source, so a timestamp is modelled as its civil date plus wall-clock time of
day; JavaScript `Date.getTime()` ordering coincides with the lexicographic
ordering on (date, time of day), which is the ordering `instKey` provides.
-/

namespace Payroll

/-! ## Civil calendar

`formatDate` in the source renders every timestamp as a `YYYY-MM-DD` civil
date; the engine then manipulates those dates with JavaScript `Date`
arithmetic (`new Date(y, m, 1)`, `new Date(y, m + 1, 0)`,
`setDate(getDate() + 1)`).  `CivilDate` is the corresponding value, and
`nextDay` is the `setDate(getDate() + 1)` step on in-range dates. -/

/-- A civil (calendar) date as rendered by `formatDate`: year, month (1–12),
day of month (1-based). -/
structure CivilDate where
  year : Nat
  month : Nat
  day : Nat
deriving DecidableEq, Repr

/-- Gregorian leap-year rule, as implemented by JavaScript `Date`. -/
def isLeapYear (y : Nat) : Bool :=
  (y % 4 == 0 && y % 100 != 0) || y % 400 == 0

/-- Number of days in a month (`new Date(y, m, 0).getDate()` for the 1-based
month `m`). -/
def daysInMonth (y m : Nat) : Nat :=
  if m = 2 then (if isLeapYear y then 29 else 28)
  else if m = 4 ∨ m = 6 ∨ m = 9 ∨ m = 11 then 30
  else 31

/-- A date is valid when it denotes a real Gregorian calendar day (with a
positive year, which holds for every date a device timestamp renders to). -/
def CivilDate.Valid (d : CivilDate) : Prop :=
  1 ≤ d.year ∧ 1 ≤ d.month ∧ d.month ≤ 12 ∧ 1 ≤ d.day ∧ d.day ≤ daysInMonth d.year d.month

instance (d : CivilDate) : Decidable d.Valid := by
  unfold CivilDate.Valid; infer_instance

/-- `currentDate.setDate(currentDate.getDate() + 1)`: the next calendar day of
an in-range date. -/
def nextDay (d : CivilDate) : CivilDate :=
  if d.day < daysInMonth d.year d.month then ⟨d.year, d.month, d.day + 1⟩
  else if d.month < 12 then ⟨d.year, d.month + 1, 1⟩
  else ⟨d.year + 1, 1, 1⟩

/-- Number of leap years in `[1, y)`. -/
def leapsBefore (y : Nat) : Nat :=
  (y - 1) / 4 - (y - 1) / 100 + (y - 1) / 400

/-- Days in the years `[1, y)`. -/
def daysBeforeYear (y : Nat) : Nat :=
  365 * (y - 1) + leapsBefore y

/-- Days in the months `[1, m)` of year `y`. -/
def daysBeforeMonth (y : Nat) : Nat → Nat
  | 0 => 0
  | 1 => 0
  | m + 2 => daysBeforeMonth y (m + 1) + daysInMonth y (m + 1)

/-- Rata-die rank of a civil date: the number of days from the calendar epoch,
so that consecutive calendar days have consecutive ranks.  This is the
shallow-embedding counterpart of JavaScript `Date.getTime()` (up to the fixed
86400000 ms/day scaling), used to express date ordering and enumeration. -/
def rata (d : CivilDate) : Nat :=
  daysBeforeYear d.year + daysBeforeMonth d.year d.month + d.day

/-- Days in year `y`. -/
def daysInYear (y : Nat) : Nat := if isLeapYear y then 366 else 365

/-! ## Date enumeration

`calculateUserAttendance` runs
`while (currentDate.getTime() <= monthEnd.getTime()) { push(formatDate(currentDate)); currentDate.setDate(currentDate.getDate() + 1); }`.
For in-range dates the `getTime()` comparison coincides with comparison of
rata-die ranks, and each loop step advances the rank by one, so the loop runs
exactly `rata stop + 1 - rata start` times; `enumDatesAux` makes that
iteration count explicit as fuel. -/

/-- The body of the date-enumeration loop, with an explicit iteration bound. -/
def enumDatesAux (stop : CivilDate) : Nat → CivilDate → List CivilDate
  | 0, _ => []
  | fuel + 1, d =>
    if rata d ≤ rata stop then d :: enumDatesAux stop fuel (nextDay d) else []

/-- All civil dates from `start` to `stop` inclusive, in calendar order: the
`allDates` array built by `calculateUserAttendance`. -/
def enumDates (start stop : CivilDate) : List CivilDate :=
  enumDatesAux stop (rata stop + 1 - rata start) start

/-! ## Shared data model

The record and settings shapes from `packages/shared/src/types.ts`, together
with the helpers from `packages/shared/src/utils.ts`.  A timestamp, always
interpreted in the one fixed civil timezone, is represented by its civil date
(`formatDate`) together with its wall-clock time of day (`formatTime`). -/

/-- A wall-clock time of day, the information content of the `HH:MM:SS`
string that `formatTime` renders. -/
structure TimeOfDay where
  hour : Nat
  minute : Nat
  second : Nat
deriving DecidableEq, Repr

/-- `timeToMinutes` splits `HH:MM[:SS]` on `:` and reads only the first two
fields, so the seconds component is discarded. -/
def timeToMinutes (t : TimeOfDay) : Nat :=
  t.hour * 60 + t.minute

/-- `RawAttendanceRecord`: one parsed punch.  `date`/`hour`/`minute`/`second`
carry the civil rendering of the `timestamp` field. -/
structure RawAttendanceRecord where
  userId : Int
  date : CivilDate
  hour : Nat
  minute : Nat
  second : Nat
  verificationType : Int
  inOutStatus : Int
  workCode : Int
  reserved : Int
deriving DecidableEq, Repr

/-- `formatTime` of a record's timestamp. -/
def formatTime (r : RawAttendanceRecord) : TimeOfDay :=
  ⟨r.hour, r.minute, r.second⟩

/-- `timestamp.getTime()` up to an affine rescaling: rata-die day count times
86400 seconds plus the second of the civil day.  Two timestamps compare under
`getTime()` exactly as their `instKey`s compare. -/
def instKey (r : RawAttendanceRecord) : Nat :=
  rata r.date * 86400 + r.hour * 3600 + r.minute * 60 + r.second

/-- `AttendanceStatus` from the shared types. -/
inductive AttendanceStatus where
  | PRESENT
  | ABSENT
  | INCOMPLETE
  | COMP
deriving DecidableEq, Repr

/-- `getVerificationLabel` from the shared utils. -/
def getVerificationLabel (type : Int) : String :=
  if type = 0 then "Password"
  else if type = 1 then "Fingerprint"
  else if type = 2 then "Card"
  else if type = 3 then "Password + Fingerprint"
  else if type = 4 then "Card + Fingerprint"
  else if type = 15 then "Face"
  else "Type " ++ toString type

/-- Punch classification in the daily view. -/
inductive PunchType where
  | IN
  | OUT
deriving DecidableEq, Repr

/-- `PunchRecord` from the shared types. -/
structure PunchRecord where
  time : TimeOfDay
  type : PunchType
  verificationType : String
  isPaired : Bool
deriving DecidableEq, Repr

/-- `DailyAttendance` from the shared types. -/
structure DailyAttendance where
  userId : Int
  date : CivilDate
  firstIn : Option TimeOfDay
  lastOut : Option TimeOfDay
  totalHours : Int
  totalMinutes : Int
  punches : List PunchRecord
  status : AttendanceStatus
  isLate : Bool
  isEarlyOut : Bool
  overtime : Int
deriving DecidableEq, Repr

/-- `AttendanceSettings`, with the two `HH:MM` times already put through
`timeToMinutes` (the only way the engine ever reads them). -/
structure AttendanceSettings where
  workStartMinutes : Int
  workEndMinutes : Int
  lateThresholdMinutes : Int
  earlyOutThresholdMinutes : Int
deriving DecidableEq, Repr

/-- `UserAttendanceSummary` as built by `calculateUserAttendance` (the engine
returns no `compDays` field). -/
structure UserAttendanceSummary where
  userId : Int
  totalDays : Nat
  presentDays : Nat
  absentDays : Nat
  incompleteDays : Nat
  totalWorkingHours : Int
  totalWorkingMinutes : Int
  averageHoursPerDay : ℚ
  lateDays : Nat
  earlyOutDays : Nat
  overtimeMinutes : Int
  dailyRecords : List DailyAttendance
deriving DecidableEq, Repr

/-! ## The daily derivation: `AttendanceService.calculateDailyAttendance` -/

/-- `[...records].sort((a, b) => a.timestamp.getTime() - b.timestamp.getTime())`:
a stable sort of the day's records by timestamp (ECMAScript `Array.sort` is
stable; insertion sort realises the same specification). -/
def sortByTimestamp (records : List RawAttendanceRecord) : List RawAttendanceRecord :=
  List.insertionSort (fun a b => instKey a ≤ instKey b) records

/-- The punch view-object built for the record at position `index` of the
sorted day list. -/
def mkPunch (punchCount : Nat) (ir : Nat × RawAttendanceRecord) : PunchRecord :=
  let index := ir.1
  let r := ir.2
  let isEvenIndex := index % 2 = 0
  let isPaired : Bool := if isEvenIndex then decide (index + 1 < punchCount) else true
  { time := formatTime r,
    type := if isEvenIndex then PunchType.IN else PunchType.OUT,
    verificationType := getVerificationLabel r.verificationType,
    isPaired := isPaired }

/-- The working-minutes loop
`for (let i = 0; i < sortedRecords.length - 1; i += 2) totalMinutes += max(0, out - in)`:
each consecutive (even, odd) pair contributes `max 0 (outMinutes - inMinutes)`
and an unpaired trailing record contributes nothing. -/
def pairDurations : List RawAttendanceRecord → Int
  | a :: b :: rest =>
      max 0 ((timeToMinutes (formatTime b) : Int) - (timeToMinutes (formatTime a) : Int)) +
        pairDurations rest
  | _ => 0

/-- `t ? timeToMinutes(t) : 0`. -/
def optTimeMinutes : Option TimeOfDay → Int
  | some t => (timeToMinutes t : Int)
  | none => 0

/-- `AttendanceService.calculateDailyAttendance`. -/
def calculateDailyAttendance (date : CivilDate) (records : List RawAttendanceRecord)
    (settings : AttendanceSettings) : DailyAttendance :=
  let sortedRecords := sortByTimestamp records
  let punchCount := sortedRecords.length
  let punches := sortedRecords.enum.map (mkPunch punchCount)
  let firstIn : Option TimeOfDay := punches.head?.map (fun p => p.time)
  let lastOut : Option TimeOfDay :=
    if 1 < punches.length then punches.getLast?.map (fun p => p.time) else none
  let totalMinutesWorked := pairDurations sortedRecords
  let totalHours := totalMinutesWorked / 60
  let remainingMinutes := totalMinutesWorked % 60
  let status :=
    if punchCount = 0 then AttendanceStatus.ABSENT
    else if punchCount % 2 = 0 then AttendanceStatus.PRESENT
    else AttendanceStatus.INCOMPLETE
  let firstInMinutes := optTimeMinutes firstIn
  let isLate : Bool :=
    decide (status = AttendanceStatus.PRESENT) && firstIn.isSome &&
      decide (firstInMinutes > settings.workStartMinutes + settings.lateThresholdMinutes)
  let lastOutMinutes := optTimeMinutes lastOut
  let isEarlyOut : Bool :=
    decide (status = AttendanceStatus.PRESENT) && lastOut.isSome &&
      decide (lastOutMinutes < settings.workEndMinutes - settings.earlyOutThresholdMinutes)
  let expectedMinutes := settings.workEndMinutes - settings.workStartMinutes
  let overtime :=
    if status = AttendanceStatus.PRESENT then max 0 (totalMinutesWorked - expectedMinutes)
    else 0
  { userId := (match records with | [] => 0 | r :: _ => r.userId),
    date := date,
    firstIn := firstIn,
    lastOut := lastOut,
    totalHours := totalHours,
    totalMinutes := remainingMinutes,
    punches := punches,
    status := status,
    isLate := isLate,
    isEarlyOut := isEarlyOut,
    overtime := overtime }

/-! ## The per-user derivation: `AttendanceService.calculateUserAttendance` -/

/-- Statistics accumulated by the per-date loop of
`calculateUserAttendance`. -/
structure LoopStats where
  totalWorkingMinutes : Int
  lateDays : Nat
  earlyOutDays : Nat
  overtimeMinutes : Int
  presentDays : Nat
  absentDays : Nat
  incompleteDays : Nat
deriving DecidableEq, Repr

/-- One iteration of the statistics-update block of the loop. -/
def updateStats (s : LoopStats) (daily : DailyAttendance) : LoopStats :=
  if daily.status = AttendanceStatus.PRESENT then
    { s with
      totalWorkingMinutes :=
        s.totalWorkingMinutes + (daily.totalHours * 60 + daily.totalMinutes),
      lateDays := if daily.isLate then s.lateDays + 1 else s.lateDays,
      earlyOutDays := if daily.isEarlyOut then s.earlyOutDays + 1 else s.earlyOutDays,
      overtimeMinutes :=
        if daily.overtime > 0 then s.overtimeMinutes + daily.overtime
        else s.overtimeMinutes,
      presentDays := s.presentDays + 1 }
  else if daily.status = AttendanceStatus.ABSENT then
    { s with absentDays := s.absentDays + 1 }
  else if daily.status = AttendanceStatus.INCOMPLETE then
    { s with incompleteDays := s.incompleteDays + 1 }
  else s

/-- `groupByDate` membership: the day group of `date` holds exactly the user's
records whose timestamp renders to that date, in input order. -/
def recordsForDate (records : List RawAttendanceRecord) (date : CivilDate) :
    List RawAttendanceRecord :=
  records.filter (fun r => r.date == date)

/-- The synthesized record for a date with no punches. -/
def absentDaily (userId : Int) (date : CivilDate) : DailyAttendance :=
  { userId := userId, date := date, firstIn := none, lastOut := none,
    totalHours := 0, totalMinutes := 0, punches := [],
    status := AttendanceStatus.ABSENT, isLate := false, isEarlyOut := false,
    overtime := 0 }

/-- The loop body choosing between the two branches for one enumerated date. -/
def dailyFor (userId : Int) (records : List RawAttendanceRecord)
    (settings : AttendanceSettings) (date : CivilDate) : DailyAttendance :=
  let dayRecords := recordsForDate records date
  if 0 < dayRecords.length then calculateDailyAttendance date dayRecords settings
  else absentDaily userId date

/-- `new Date(Math.min(...))` over civil dates: the earliest of a nonempty
date list (seed plus remaining elements). -/
def minByRata (d : CivilDate) (ds : List CivilDate) : CivilDate :=
  ds.foldl (fun acc x => if rata x < rata acc then x else acc) d

/-- `new Date(Math.max(...))` over civil dates. -/
def maxByRata (d : CivilDate) (ds : List CivilDate) : CivilDate :=
  ds.foldl (fun acc x => if rata acc < rata x then x else acc) d

/-- `new Date(minDate.getFullYear(), minDate.getMonth(), 1)`. -/
def monthStartOf (d : CivilDate) : CivilDate := ⟨d.year, d.month, 1⟩

/-- `new Date(maxDate.getFullYear(), maxDate.getMonth() + 1, 0)`: the last day
of the month of `d`. -/
def monthEndOf (d : CivilDate) : CivilDate := ⟨d.year, d.month, daysInMonth d.year d.month⟩

/-- The distinct civil dates of a user's records (the keys of `groupByDate`). -/
def dateKeys (records : List RawAttendanceRecord) : List CivilDate :=
  (records.map (fun r => r.date)).dedup

/-- JavaScript `Math.round`: round half toward positive infinity. -/
def jsRound (x : ℚ) : Int := Int.floor (x + 1 / 2)

/-- `Math.round(x * 100) / 100`: round to two decimal places. -/
def jsRound2 (x : ℚ) : ℚ := (jsRound (x * 100) : ℚ) / 100

/-- The summary value for an empty record set (unreachable in the source,
which only calls the engine on nonempty per-user groups). -/
def emptySummary (userId : Int) : UserAttendanceSummary :=
  ⟨userId, 0, 0, 0, 0, 0, 0, 0, 0, 0, 0, []⟩

/-- The body of `AttendanceService.calculateUserAttendance` once the distinct
observed dates `d :: ds` are in hand. -/
def calculateUserAttendanceCore (userId : Int) (records : List RawAttendanceRecord)
    (settings : AttendanceSettings) (d : CivilDate) (ds : List CivilDate) :
    UserAttendanceSummary :=
    let minDate := minByRata d ds
    let maxDate := maxByRata d ds
    let monthStart := monthStartOf minDate
    let monthEnd := monthEndOf maxDate
    let allDates := enumDates monthStart monthEnd
    let dailyRecords := allDates.map (dailyFor userId records settings)
    let stats := dailyRecords.foldl updateStats ⟨0, 0, 0, 0, 0, 0, 0⟩
    let totalDays := dailyRecords.length
    let totalWorkingHours := stats.totalWorkingMinutes / 60
    let remainingMinutes := stats.totalWorkingMinutes % 60
    let averageHoursPerDay : ℚ :=
      if 0 < stats.presentDays then
        (stats.totalWorkingMinutes : ℚ) / 60 / (stats.presentDays : ℚ)
      else 0
    { userId := userId,
      totalDays := totalDays,
      presentDays := stats.presentDays,
      absentDays := stats.absentDays,
      incompleteDays := stats.incompleteDays,
      totalWorkingHours := totalWorkingHours,
      totalWorkingMinutes := remainingMinutes,
      averageHoursPerDay := jsRound2 averageHoursPerDay,
      lateDays := stats.lateDays,
      earlyOutDays := stats.earlyOutDays,
      overtimeMinutes := stats.overtimeMinutes,
      dailyRecords := dailyRecords }

/-- `AttendanceService.calculateUserAttendance` (the source computes
`Math.min`/`Math.max` over the observed dates, which presupposes the per-user
record group is nonempty — as it always is, coming out of `groupByUser`). -/
def calculateUserAttendance (userId : Int) (records : List RawAttendanceRecord)
    (settings : AttendanceSettings) : UserAttendanceSummary :=
  match dateKeys records with
  | [] => emptySummary userId
  | d :: ds => calculateUserAttendanceCore userId records settings d ds

/-! ## The punch-log line parser: `DatFileParser.parseLine`

The parser is built from JavaScript string builtins; each builtin is modelled
by a Lean function over the line's character list.  A punch line contains only
printable characters, spaces and tabs (the file is split on newlines before
`parseLine` runs), so JavaScript `\s` is space-or-tab here. -/

/-- Whitespace as it can occur inside one punch-log line. -/
def isSepWs (c : Char) : Bool := c == ' ' || c == '\t'

/-- Tokenizer loop for `line.split(/\t+|\s{2,}/)`: a separator is a maximal
run of tabs, or a run of two or more whitespace characters; a single space
(not followed by more whitespace) stays inside the current token.  The first
argument bounds the number of loop steps; every step consumes at least one
character, so running with the input's length as the bound realises the
loop exactly. -/
def splitTokensAux : Nat → List Char → List Char → List String
  | _, [], tok => [String.mk tok.reverse]
  | 0, _ :: _, _ => []
  | fuel + 1, '\t' :: rest, tok =>
      String.mk tok.reverse :: splitTokensAux fuel (rest.dropWhile (fun c => c == '\t')) []
  | fuel + 1, c :: rest, tok =>
      if isSepWs c && (match rest with | [] => false | c' :: _ => isSepWs c') then
        String.mk tok.reverse :: splitTokensAux fuel (rest.dropWhile isSepWs) []
      else splitTokensAux fuel rest (c :: tok)

/-- `line.split(/\t+|\s{2,}/).filter(Boolean)`. -/
def splitTokens (line : String) : List String :=
  (splitTokensAux line.data.length line.data []).filter (fun s => !s.data.isEmpty)

/-- Value of a leading decimal-digit run, `none` when the run is empty. -/
def digitsPrefix (cs : List Char) : Option Nat :=
  let ds := cs.takeWhile Char.isDigit
  if ds.isEmpty then none
  else some (ds.foldl (fun n c => n * 10 + (c.toNat - 48)) 0)

/-- Models the JavaScript builtin `parseInt(s, 10)`: skip leading whitespace,
read an optional sign and then the longest leading run of decimal digits;
`NaN` (here `none`) when that run is empty. -/
def parseIntJs (s : String) : Option Int :=
  match s.data.dropWhile isSepWs with
  | '-' :: rest => (digitsPrefix rest).map (fun n => -(n : Int))
  | '+' :: rest => (digitsPrefix rest).map (fun n => (n : Int))
  | cs => (digitsPrefix cs).map (fun n => (n : Int))

/-- JavaScript `String.prototype.trim` on a punch-line token. -/
def trimJs (s : String) : String :=
  String.mk (((s.data.dropWhile isSepWs).reverse.dropWhile isSepWs).reverse)

/-- JavaScript `s.includes(c)` for a single-character needle. -/
def containsChar (s : String) (c : Char) : Bool :=
  s.data.any (fun x => x == c)

/-- Split a character list on every occurrence of `sep` (JavaScript
`String.prototype.split` with a single-character separator). -/
def splitOnChar (sep : Char) : List Char → List (List Char)
  | [] => [[]]
  | c :: rest =>
    let r := splitOnChar sep rest
    if c == sep then [] :: r
    else
      match r with
      | t :: ts => (c :: t) :: ts
      | [] => [[c]]

/-- Value of an all-digit field, `none` if empty or not all digits. -/
def decNat? (cs : List Char) : Option Nat :=
  if cs.isEmpty then none
  else if cs.all Char.isDigit then
    some (cs.foldl (fun n c => n * 10 + (c.toNat - 48)) 0)
  else none

/-- Models the JavaScript builtin `new Date(str + "+05:30")` on the layout the
device punch log uses: `YYYY-MM-DD HH:MM:SS` with an in-range calendar date
and time of day; anything else is an invalid date.  Appending the fixed IST
offset makes the wall-clock digits civil IST, so the civil rendering
(`formatDate`/`formatTime`) of the parsed instant is exactly those digits. -/
def parseTimestampJs (s : String) : Option (CivilDate × TimeOfDay) :=
  match splitOnChar ' ' s.data with
  | [datePart, timePart] =>
    match splitOnChar '-' datePart, splitOnChar ':' timePart with
    | [ys, ms, ds], [hs, mins, ss] =>
      match decNat? ys, decNat? ms, decNat? ds, decNat? hs, decNat? mins, decNat? ss with
      | some y, some mo, some da, some h, some mi, some se =>
        if 1 ≤ y ∧ 1 ≤ mo ∧ mo ≤ 12 ∧ 1 ≤ da ∧ da ≤ daysInMonth y mo ∧
            h < 24 ∧ mi < 60 ∧ se < 60 then
          some (⟨y, mo, da⟩, ⟨h, mi, se⟩)
        else none
      | _, _, _, _, _, _ => none
    | _, _ => none
  | _ => none

/-- The timestamp-layout dispatch of `parseLine`: returns the reconstructed
timestamp string and the index of the first trailing field. -/
def resolveTimestamp (parts : List String) : String × Nat :=
  let p1 := parts.getD 1 ""
  let p2 := parts.getD 2 ""
  if containsChar p1 ' ' || (containsChar p1 '-' && containsChar p2 ':') then
    if containsChar p1 ':' then (p1, 2) else (p1 ++ " " ++ p2, 3)
  else (p1, 2)

/-- `parseInt(parts[i] || dfltTok, 10) || dfltVal`: JavaScript `||` returns
its right operand whenever the left one is falsy — a missing token, an empty
string, `NaN`, or the number `0` — so the default is substituted in every one
of those cases, not only for a missing or non-numeric token. -/
def trailingField (parts : List String) (i : Nat) (dfltTok : String) (dfltVal : Int) : Int :=
  let tok := parts.getD i dfltTok
  let tok := if tok.data.isEmpty then dfltTok else tok
  match parseIntJs tok with
  | none => dfltVal
  | some v => if v = 0 then dfltVal else v

/-- `DatFileParser.parseLine`. -/
def parseLine (line : String) : Option RawAttendanceRecord :=
  let parts := splitTokens line
  if parts.length < 2 then none
  else
    match parseIntJs (trimJs (parts.getD 0 "")) with
    | none => none
    | some userId =>
      let resolved := resolveTimestamp parts
      let timestampStr := resolved.1
      let nextIndex := resolved.2
      match parseTimestampJs timestampStr with
      | none => none
      | some dt =>
        some { userId := userId,
               date := dt.1,
               hour := dt.2.hour,
               minute := dt.2.minute,
               second := dt.2.second,
               verificationType := trailingField parts nextIndex "1" 1,
               inOutStatus := trailingField parts (nextIndex + 1) "0" 0,
               workCode := trailingField parts (nextIndex + 2) "1" 1,
               reserved := trailingField parts (nextIndex + 3) "0" 0 }

/-! ## The binary name-directory parser: `UserDataParser` -/

/-- Printable ASCII test `0x20 ≤ b ≤ 0x7E`; a byte read past the end of the
record buffer is `undefined` in JavaScript, which fails both comparisons, so
out-of-range reads are modelled by the (non-printable) default byte 0. -/
def isPrintableByte (b : Nat) : Bool := decide (32 ≤ b ∧ b ≤ 126)

/-- ASCII decimal digit test `0x30 ≤ b ≤ 0x39`. -/
def isDigitByte (b : Nat) : Bool := decide (48 ≤ b ∧ b ≤ 57)

/-- `parseInt` of the digit-only accumulator string. -/
def digitsVal (acc : List Nat) : Nat :=
  acc.foldl (fun n b => n * 10 + (b - 48)) 0

/-- The employee-id scanning loop of `UserDataParser.parseRecord`: accumulate
ASCII digit bytes; at a non-digit byte a nonempty accumulator is parsed and
accepted when positive, otherwise reset.  A run that is still open when the
record ends is never parsed. -/
def scanUserId : List Nat → List Nat → Option Nat
  | [], _ => none
  | b :: rest, acc =>
    if isDigitByte b then scanUserId rest (acc ++ [b])
    else if 0 < acc.length then
      if 0 < digitsVal acc then some (digitsVal acc) else scanUserId rest []
    else scanUserId rest []

/-- The name-start scan: the first index in `[10, 50)` holding a printable
ASCII byte. -/
def findNameStart (record : List Nat) : Option Nat :=
  (List.range' 10 40).find? (fun i => isPrintableByte (record.getD i 0))

/-- The name-extraction loop: bytes from the name start until a NUL byte or a
non-printable byte. -/
def nameBytes (record : List Nat) (start : Nat) : List Nat :=
  (record.drop start).takeWhile isPrintableByte

/-- `String.prototype.trim` over explicit characters (a name consists of
printable ASCII, so its whitespace is the space character). -/
def trimChars (cs : List Char) : List Char :=
  ((cs.dropWhile isSepWs).reverse.dropWhile isSepWs).reverse

/-- The `UserMapping` shape of `user-data.parser.ts`. -/
structure UserMapping where
  userId : Nat
  userName : String
deriving DecidableEq, Repr

/-- `UserDataParser.parseRecord`. -/
def parseRecord (record : List Nat) (index : Nat) : Option UserMapping :=
  match findNameStart record with
  | none => none
  | some nameStartIndex =>
    let userName := trimChars ((nameBytes record nameStartIndex).map (fun b => Char.ofNat b))
    if userName.isEmpty then none
    else
      match scanUserId (record.drop (nameStartIndex + userName.length)) [] with
      | some uid => some ⟨uid, String.mk userName⟩
      | none => some ⟨index + 1, String.mk userName⟩

/-- The record-size heuristic of `UserDataParser.parse`. -/
def detectRecordSize (len : Nat) : Nat :=
  if len % 72 = 0 then 72
  else if len % 64 ≠ 0 ∧ len % 66 = 0 then 66
  else 64

/-- JavaScript `Map.prototype.set` on an insertion-ordered association
list. -/
def mapSet (m : List (Nat × String)) (k : Nat) (v : String) : List (Nat × String) :=
  if m.any (fun p => p.1 == k) then
    m.map (fun p => if p.1 == k then (k, v) else p)
  else m ++ [(k, v)]

/-- One iteration of the record loop of `UserDataParser.parse`: a parsed
record is inserted into the map, an unparseable record is skipped. -/
def parseStep (f : Nat → Option UserMapping) (m : List (Nat × String)) (i : Nat) :
    List (Nat × String) :=
  match f i with
  | some r => mapSet m r.userId r.userName
  | none => m

/-- `UserDataParser.parse`: slice the buffer into fixed-size records, collect
every parsed record into the id → name map, and fail only when the final map
is empty. -/
def parseUserData (buffer : List Nat) : Except String (List (Nat × String)) :=
  let recordSize := detectRecordSize buffer.length
  let recordCount := buffer.length / recordSize
  let userMapping := (List.range recordCount).foldl
    (parseStep (fun i => parseRecord ((buffer.drop (i * recordSize)).take recordSize) i))
    []
  if userMapping.length = 0 then
    Except.error "No valid user records found in user data file"
  else Except.ok userMapping

/-! ## Specification-side definitions

These definitions transcribe wording of the specification (not the source);
the theorems below compare the source-derived functions against them. -/

/-- Placeholder record used only as the out-of-range default of `List.getD`
in index-based statements. -/
def defaultRecord : RawAttendanceRecord :=
  ⟨0, ⟨1, 1, 1⟩, 0, 0, 0, 0, 0, 0, 0⟩

/-- The duration rule as the specification words it: the sum of
`max 0 (out_minutes - in_minutes)` over the consecutive index pairs
(0,1), (2,3), …; the trailing record of an odd-length list belongs to no pair
and contributes nothing. -/
def specPairSum (l : List RawAttendanceRecord) : Int :=
  ((List.range (l.length / 2)).map
    (fun i =>
      max 0 ((timeToMinutes (formatTime (l.getD (2 * i + 1) defaultRecord)) : Int) -
        (timeToMinutes (formatTime (l.getD (2 * i) defaultRecord)) : Int)))).sum

/-- The claim-side reading of the summary: the worked minutes summed over
the PRESENT daily records only. -/
def presentWorkedSum (l : List DailyAttendance) : Int :=
  ((l.filter (fun r => decide (r.status = AttendanceStatus.PRESENT))).map
    (fun r => r.totalHours * 60 + r.totalMinutes)).sum

/-- The number of PRESENT daily records. -/
def presentCount (l : List DailyAttendance) : Nat :=
  (l.filter (fun r => decide (r.status = AttendanceStatus.PRESENT))).length

/-- Trailing-field semantics as the amended C7 claim words it: the default is
used when the token is missing, non-numeric, or parses to the number zero; a
present numeric token parsing to a nonzero value is preserved as written. -/
def expectedTrailing (parts : List String) (i : Nat) (dflt : Int) : Int :=
  match parts.get? i with
  | none => dflt
  | some tok =>
    match parseIntJs tok with
    | none => dflt
    | some v => if v = 0 then dflt else v

/-- Employee-id extraction as the amended C8 claim words it: the value of the
first maximal ASCII-digit run that is terminated by a non-digit byte before
the record ends and parses to a positive integer; a digit run still open at
the very end of the record does not count. -/
def firstTerminatedRunId : List Nat → Option Nat
  | [] => none
  | b :: rest =>
    if isDigitByte b then
      match hrest : rest.dropWhile isDigitByte with
      | [] => none
      | _ :: rest2 =>
        if 0 < digitsVal (b :: rest.takeWhile isDigitByte) then
          some (digitsVal (b :: rest.takeWhile isDigitByte))
        else firstTerminatedRunId rest2
    else firstTerminatedRunId rest
termination_by l => l.length
decreasing_by
  · have key : ∀ l : List Nat, (l.dropWhile isDigitByte).length ≤ l.length := by
      intro l
      induction l with
      | nil => simp [List.dropWhile]
      | cons a l ih =>
        rw [List.dropWhile_cons]
        split
        · exact Nat.le_succ_of_le ih
        · exact Nat.le_refl _
    have h1 := key rest
    rw [hrest] at h1
    simp only [List.length_cons] at h1 ⊢
    omega
  · simp only [List.length_cons]
    omega

/-! ## Concrete sample inputs

Small concrete device inputs used to instantiate the theorems below. -/

/-- A well-formed punch line whose verification-type token is `"2"`. -/
def sampleLine : String := "5\t2025-12-01 09:47:09\t2"

/-- The record `parseLine` produces for `sampleLine`. -/
def sampleLineRecord : RawAttendanceRecord :=
  ⟨5, ⟨2025, 12, 1⟩, 9, 47, 9, 2, 0, 1, 0⟩

/-- A well-formed punch line whose verification-type token is the numeric
string `"0"`. -/
def zeroVerificationLine : String := "5\t2025-12-01 09:47:09\t0"

/-- One punch of employee 5 at 09:00:00 on 2025-12-01. -/
def witnessRecord : RawAttendanceRecord := ⟨5, ⟨2025, 12, 1⟩, 9, 0, 0, 1, 0, 1, 0⟩

/-- A one-punch record set. -/
def witnessRecords : List RawAttendanceRecord := [witnessRecord]

/-- Two punches of employee 5 on 2025-12-01 (09:00:00 in, 18:30:00 out). -/
def witnessRecordsTwo : List RawAttendanceRecord :=
  [⟨5, ⟨2025, 12, 1⟩, 9, 0, 0, 1, 0, 1, 0⟩, ⟨5, ⟨2025, 12, 1⟩, 18, 30, 0, 1, 0, 1, 0⟩]

/-- The default settings 09:30–18:30 with 15/15 minute grace, in minutes. -/
def witnessSettings : AttendanceSettings := ⟨570, 1110, 15, 15⟩

/-- A 64-byte directory record whose name is "AB" and whose only digit run
(the byte `'7'`) extends to the final byte of the record. -/
def trailingRunRecord : List Nat :=
  List.replicate 11 0 ++ [65, 66] ++ List.replicate 50 0 ++ [55]

/-- A 64-byte directory record whose name is "AB" followed by the digit run
`"7"` terminated by a NUL byte. -/
def terminatedRunRecord : List Nat :=
  List.replicate 11 0 ++ [65, 66, 0, 55, 0] ++ List.replicate 48 0

/-- The first daily record of the one-punch December 2025 run. -/
def witnessDaily : DailyAttendance :=
  (calculateUserAttendance 5 witnessRecords witnessSettings).dailyRecords.getD 0
    (absentDaily 0 ⟨1, 1, 1⟩)

/-- The first daily record of the two-punch December 2025 run. -/
def witnessDailyTwo : DailyAttendance :=
  (calculateUserAttendance 5 witnessRecordsTwo witnessSettings).dailyRecords.getD 0
    (absentDaily 0 ⟨1, 1, 1⟩)

/-! # Theorems -/

/-! ## Calendar arithmetic lemmas -/

theorem daysBeforeMonth_succ (y m : Nat) (hm : 1 ≤ m) :
    daysBeforeMonth y (m + 1) = daysBeforeMonth y m + daysInMonth y m := by
  match m, hm with
  | n + 1, _ => rfl

theorem daysInMonth_pos (y m : Nat) : 1 ≤ daysInMonth y m := by
  unfold daysInMonth
  split
  · split <;> omega
  · split <;> omega

theorem daysBeforeMonth_full (y : Nat) :
    daysBeforeMonth y 13 = daysInYear y := by
  cases h : isLeapYear y <;>
    simp [daysBeforeMonth, daysInMonth, daysInYear, h]

theorem leapsBefore_succ (y : Nat) (hy : 1 ≤ y) :
    leapsBefore (y + 1) = leapsBefore y + (if isLeapYear y then 1 else 0) := by
  have hy1 : y - 1 + 1 = y := by omega
  have h4 := Nat.succ_div (y - 1) 4
  have h100 := Nat.succ_div (y - 1) 100
  have h400 := Nat.succ_div (y - 1) 400
  rw [hy1] at h4 h100 h400
  unfold leapsBefore
  simp only [Nat.add_sub_cancel]
  rw [h4, h100, h400]
  by_cases h1 : y % 4 = 0 <;> by_cases h2 : y % 100 = 0 <;> by_cases h3 : y % 400 = 0 <;>
    simp [isLeapYear, Nat.dvd_iff_mod_eq_zero, h1, h2, h3] <;> omega

theorem daysBeforeYear_succ (y : Nat) (hy : 1 ≤ y) :
    daysBeforeYear (y + 1) = daysBeforeYear y + daysInYear y := by
  unfold daysBeforeYear daysInYear
  rw [leapsBefore_succ y hy]
  cases isLeapYear y <;> simp <;> omega

theorem rata_nextDay (d : CivilDate) (hv : d.Valid) :
    rata (nextDay d) = rata d + 1 := by
  obtain ⟨hy, hm1, hm12, hd1, hdm⟩ := hv
  unfold nextDay rata
  split
  · show daysBeforeYear d.year + daysBeforeMonth d.year d.month + (d.day + 1) =
      daysBeforeYear d.year + daysBeforeMonth d.year d.month + d.day + 1
    omega
  · rename_i hnd
    have hde : d.day = daysInMonth d.year d.month := by omega
    split
    · rename_i hmlt
      have hstep := daysBeforeMonth_succ d.year d.month hm1
      show daysBeforeYear d.year + daysBeforeMonth d.year (d.month + 1) + 1 =
        daysBeforeYear d.year + daysBeforeMonth d.year d.month + d.day + 1
      omega
    · rename_i hm12'
      have hme : d.month = 12 := by omega
      have h13 := daysBeforeMonth_full d.year
      have hsy := daysBeforeYear_succ d.year hy
      have h12 : daysBeforeMonth d.year 13 =
          daysBeforeMonth d.year 12 + daysInMonth d.year 12 :=
        daysBeforeMonth_succ d.year 12 (by omega)
      show daysBeforeYear (d.year + 1) + daysBeforeMonth (d.year + 1) 1 + 1 =
        daysBeforeYear d.year + daysBeforeMonth d.year d.month + d.day + 1
      rw [hme] at hde ⊢
      have hz : daysBeforeMonth (d.year + 1) 1 = 0 := rfl
      omega

theorem nextDay_valid (d : CivilDate) (hv : d.Valid) : (nextDay d).Valid := by
  obtain ⟨hy, hm1, hm12, hd1, hdm⟩ := hv
  have p1 := daysInMonth_pos d.year (d.month + 1)
  have p2 := daysInMonth_pos (d.year + 1) 1
  unfold nextDay
  split
  · rename_i hlt
    have hd1' : (1:Nat) ≤ d.day + 1 := by omega
    have hdm' : d.day + 1 ≤ daysInMonth d.year d.month := by omega
    exact ⟨hy, hm1, hm12, hd1', hdm'⟩
  · split
    · rename_i hmlt
      have hm1' : (1:Nat) ≤ d.month + 1 := by omega
      have hm12' : d.month + 1 ≤ 12 := by omega
      exact ⟨hy, hm1', hm12', le_refl 1, p1⟩
    · have hy' : (1:Nat) ≤ d.year + 1 := by omega
      have h112 : (1:Nat) ≤ 12 := by omega
      exact ⟨hy', le_refl 1, h112, le_refl 1, p2⟩

theorem daysBeforeMonth_mono (y m m' : Nat) (h1 : 1 ≤ m) (h : m ≤ m') :
    daysBeforeMonth y m ≤ daysBeforeMonth y m' := by
  induction m' with
  | zero => omega
  | succ k ih =>
    rcases Nat.lt_or_ge m (k + 1) with hlt | hge
    · have hk : 1 ≤ k := by omega
      have := daysBeforeMonth_succ y k hk
      have := ih (by omega)
      omega
    · have : m = k + 1 := by omega
      subst this
      exact Nat.le_refl _

theorem rata_month_bounds (y m day : Nat) (hm1 : 1 ≤ m) (hm12 : m ≤ 12)
    (hd1 : 1 ≤ day) (hdm : day ≤ daysInMonth y m) :
    1 ≤ daysBeforeMonth y m + day ∧ daysBeforeMonth y m + day ≤ daysInYear y := by
  constructor
  · omega
  · have hstep := daysBeforeMonth_succ y m hm1
    have hmono := daysBeforeMonth_mono y (m + 1) 13 (by omega) (by omega)
    have hfull := daysBeforeMonth_full y
    omega

theorem daysBeforeYear_add_lt (y y' : Nat) (hy : 1 ≤ y) (h : y < y') :
    daysBeforeYear y + daysInYear y ≤ daysBeforeYear y' := by
  induction y' with
  | zero => omega
  | succ k ih =>
    rcases Nat.lt_or_ge y k with hlt | hge
    · have := ih (by omega)
      have hk : 1 ≤ k := by omega
      have := daysBeforeYear_succ k hk
      have : 0 < daysInYear k := by unfold daysInYear; split <;> omega
      omega
    · have : y = k := by omega
      subst this
      exact (daysBeforeYear_succ y hy).ge

theorem rata_injective {d e : CivilDate} (hd : d.Valid) (he : e.Valid)
    (h : rata d = rata e) : d = e := by
  obtain ⟨hdy, hdm1, hdm12, hdd1, hddm⟩ := hd
  obtain ⟨hey, hem1, hem12, hed1, hedm⟩ := he
  have hdb := rata_month_bounds d.year d.month d.day hdm1 hdm12 hdd1 hddm
  have heb := rata_month_bounds e.year e.month e.day hem1 hem12 hed1 hedm
  -- the years agree
  have hyear : d.year = e.year := by
    by_contra hne
    rcases Nat.lt_or_ge d.year e.year with hlt | hge
    · have := daysBeforeYear_add_lt d.year e.year hdy hlt
      unfold rata at h
      omega
    · have hlt : e.year < d.year := by omega
      have := daysBeforeYear_add_lt e.year d.year hey hlt
      unfold rata at h
      omega
  -- the months agree
  have hmonth : d.month = e.month := by
    by_contra hne
    rcases Nat.lt_or_ge d.month e.month with hlt | hge
    · have hstep := daysBeforeMonth_succ d.year d.month hdm1
      have hmono := daysBeforeMonth_mono d.year (d.month + 1) e.month (by omega) (by omega)
      unfold rata at h
      rw [hyear] at h hstep hmono hddm
      omega
    · have hlt : e.month < d.month := by omega
      have hstep := daysBeforeMonth_succ e.year e.month hem1
      have hmono := daysBeforeMonth_mono e.year (e.month + 1) d.month (by omega) (by omega)
      unfold rata at h
      rw [hyear] at h
      omega
  -- the days agree
  have hday : d.day = e.day := by
    unfold rata at h
    rw [hyear, hmonth] at h
    omega
  cases d; cases e
  simp_all

theorem length_dropWhile_le {α : Type} (p : α → Bool) (l : List α) :
    (l.dropWhile p).length ≤ l.length := by
  induction l with
  | nil => simp [List.dropWhile]
  | cons a l ih =>
    rw [List.dropWhile_cons]
    split
    · exact Nat.le_succ_of_le ih
    · exact Nat.le_refl _

/-! ## Date-enumeration lemmas -/

theorem enumDates_unfold (start stop : CivilDate) (hv : start.Valid) :
    enumDates start stop =
      if rata start ≤ rata stop then start :: enumDates (nextDay start) stop
      else [] := by
  unfold enumDates
  by_cases h : rata start ≤ rata stop
  · have hfuel : rata stop + 1 - rata start = (rata stop + 1 - rata (nextDay start)) + 1 := by
      have := rata_nextDay start hv
      omega
    rw [hfuel]
    simp [enumDatesAux, h]
  · have hfuel : rata stop + 1 - rata start = 0 := by omega
    rw [hfuel]
    simp [enumDatesAux, h]

theorem enumDatesAux_spec (stop : CivilDate) :
    ∀ (fuel : Nat) (d : CivilDate), d.Valid → fuel = rata stop + 1 - rata d →
      (enumDatesAux stop fuel d).map rata = List.range' (rata d) fuel ∧
      ∀ e ∈ enumDatesAux stop fuel d, e.Valid := by
  intro fuel
  induction fuel with
  | zero => intro d _ _; simp [enumDatesAux]
  | succ k ih =>
    intro d hv hf
    have hle : rata d ≤ rata stop := by omega
    have hnext := rata_nextDay d hv
    have hnv := nextDay_valid d hv
    have hk : k = rata stop + 1 - rata (nextDay d) := by omega
    obtain ⟨ih1, ih2⟩ := ih (nextDay d) hnv hk
    constructor
    · simp only [enumDatesAux, if_pos hle, List.map_cons, ih1]
      have hr : List.range' (rata d) (k + 1) = rata d :: List.range' (rata d + 1) k := rfl
      rw [hr, hnext]
    · intro e he
      simp only [enumDatesAux, if_pos hle, List.mem_cons] at he
      rcases he with rfl | he
      · exact hv
      · exact ih2 e he

theorem enumDates_map_rata (start stop : CivilDate) (hv : start.Valid) :
    (enumDates start stop).map rata =
      List.range' (rata start) (rata stop + 1 - rata start) :=
  (enumDatesAux_spec stop _ start hv rfl).1

theorem enumDates_valid (start stop : CivilDate) (hv : start.Valid) :
    ∀ e ∈ enumDates start stop, e.Valid :=
  (enumDatesAux_spec stop _ start hv rfl).2

theorem enumDates_nodup (start stop : CivilDate) (hv : start.Valid) :
    (enumDates start stop).Nodup := by
  have h := enumDates_map_rata start stop hv
  have : ((enumDates start stop).map rata).Nodup := by
    rw [h]; exact List.nodup_range' _ _
  exact List.Nodup.of_map rata this

/-- Every real calendar date whose rank lies between `start` and `stop` occurs
exactly once in the enumeration. -/
theorem enumDates_count (start stop : CivilDate) (hv : start.Valid)
    (d : CivilDate) (hd : d.Valid)
    (h1 : rata start ≤ rata d) (h2 : rata d ≤ rata stop) :
    (enumDates start stop).count d = 1 := by
  have hmap := enumDates_map_rata start stop hv
  have hmem : rata d ∈ (enumDates start stop).map rata := by
    rw [hmap, List.mem_range']
    exact ⟨rata d - rata start, by omega, by omega⟩
  rw [List.mem_map] at hmem
  obtain ⟨e, hemem, herata⟩ := hmem
  have hev := enumDates_valid start stop hv e hemem
  have : e = d := rata_injective hev hd herata
  subst this
  exact List.count_eq_one_of_mem (enumDates_nodup start stop hv) hemem

/-! ## Engine case-analysis lemmas -/

theorem calculateUserAttendance_eq_core (userId : Int)
    (records : List RawAttendanceRecord) (settings : AttendanceSettings)
    (d : CivilDate) (ds : List CivilDate) (hk : dateKeys records = d :: ds) :
    calculateUserAttendance userId records settings =
      calculateUserAttendanceCore userId records settings d ds := by
  unfold calculateUserAttendance
  rw [hk]

theorem calculateUserAttendance_eq_empty (userId : Int)
    (records : List RawAttendanceRecord) (settings : AttendanceSettings)
    (hk : dateKeys records = []) :
    calculateUserAttendance userId records settings = emptySummary userId := by
  unfold calculateUserAttendance
  rw [hk]

theorem calculateDailyAttendance_date (date : CivilDate)
    (rs : List RawAttendanceRecord) (s : AttendanceSettings) :
    (calculateDailyAttendance date rs s).date = date := rfl

theorem calculateDailyAttendance_status (date : CivilDate)
    (rs : List RawAttendanceRecord) (s : AttendanceSettings) :
    (calculateDailyAttendance date rs s).status =
      (if rs.length = 0 then AttendanceStatus.ABSENT
       else if rs.length % 2 = 0 then AttendanceStatus.PRESENT
       else AttendanceStatus.INCOMPLETE) := by
  have hlen : (sortByTimestamp rs).length = rs.length :=
    (List.perm_insertionSort (fun a b => instKey a ≤ instKey b) rs).length_eq
  simp only [calculateDailyAttendance, hlen]

theorem calculateDailyAttendance_punches_length (date : CivilDate)
    (rs : List RawAttendanceRecord) (s : AttendanceSettings) :
    (calculateDailyAttendance date rs s).punches.length = rs.length := by
  have hlen : (sortByTimestamp rs).length = rs.length :=
    (List.perm_insertionSort (fun a b => instKey a ≤ instKey b) rs).length_eq
  simp [calculateDailyAttendance, hlen, List.enum_length]

theorem dailyFor_eq (userId : Int) (records : List RawAttendanceRecord)
    (s : AttendanceSettings) (d : CivilDate) :
    dailyFor userId records s d =
      if 0 < (recordsForDate records d).length then
        calculateDailyAttendance d (recordsForDate records d) s
      else absentDaily userId d := rfl

theorem dailyFor_date (userId : Int) (records : List RawAttendanceRecord)
    (s : AttendanceSettings) (d : CivilDate) :
    (dailyFor userId records s d).date = d := by
  rw [dailyFor_eq]
  split
  · exact calculateDailyAttendance_date ..
  · rfl

theorem dailyFor_punches_length (userId : Int) (records : List RawAttendanceRecord)
    (s : AttendanceSettings) (d : CivilDate) :
    (dailyFor userId records s d).punches.length = (recordsForDate records d).length := by
  rw [dailyFor_eq]
  split
  · exact calculateDailyAttendance_punches_length ..
  · rename_i h
    simp only [absentDaily, List.length_nil]
    omega

theorem dailyFor_status (userId : Int) (records : List RawAttendanceRecord)
    (s : AttendanceSettings) (d : CivilDate) :
    (dailyFor userId records s d).status =
      (if (recordsForDate records d).length = 0 then AttendanceStatus.ABSENT
       else if (recordsForDate records d).length % 2 = 0 then AttendanceStatus.PRESENT
       else AttendanceStatus.INCOMPLETE) := by
  rw [dailyFor_eq]
  split
  · rename_i h
    rw [calculateDailyAttendance_status, if_neg (by omega)]
  · rename_i h
    rw [if_pos (by omega)]
    rfl

theorem mem_dailyRecords (userId : Int) (records : List RawAttendanceRecord)
    (s : AttendanceSettings) (rec : DailyAttendance)
    (h : rec ∈ (calculateUserAttendance userId records s).dailyRecords) :
    ∃ d, rec = dailyFor userId records s d := by
  cases hk : dateKeys records with
  | nil =>
      rw [calculateUserAttendance_eq_empty userId records s hk] at h
      simp [emptySummary] at h
  | cons d ds =>
      rw [calculateUserAttendance_eq_core userId records s d ds hk] at h
      simp only [calculateUserAttendanceCore] at h
      rw [List.mem_map] at h
      obtain ⟨x, _, hx⟩ := h
      exact ⟨x, hx.symm⟩

/-! ## Claim C2: status partition -/

/-- C2.  Every record the engine emits has a status among PRESENT, ABSENT,
INCOMPLETE, COMP, and (this derivation path applying no COMP override)
PRESENT holds exactly when the day's punch count is even and positive,
INCOMPLETE exactly when it is odd, ABSENT exactly when it is zero; the
record's punch list has exactly the day's punches. -/
theorem c2_status_partition (userId : Int) (records : List RawAttendanceRecord)
    (s : AttendanceSettings) (rec : DailyAttendance)
    (h : rec ∈ (calculateUserAttendance userId records s).dailyRecords) :
    (rec.status = AttendanceStatus.PRESENT ∨ rec.status = AttendanceStatus.ABSENT ∨
      rec.status = AttendanceStatus.INCOMPLETE ∨ rec.status = AttendanceStatus.COMP) ∧
    (rec.status = AttendanceStatus.PRESENT ↔
      rec.punches.length % 2 = 0 ∧ 0 < rec.punches.length) ∧
    (rec.status = AttendanceStatus.INCOMPLETE ↔ rec.punches.length % 2 = 1) ∧
    (rec.status = AttendanceStatus.ABSENT ↔ rec.punches.length = 0) ∧
    rec.punches.length = (recordsForDate records rec.date).length := by
  obtain ⟨d, rfl⟩ := mem_dailyRecords userId records s rec h
  rw [dailyFor_date, dailyFor_punches_length, dailyFor_status]
  set n := (recordsForDate records d).length with hn
  by_cases h0 : n = 0
  · simp [h0]
  · by_cases h2 : n % 2 = 0
    · rw [if_neg h0, if_pos h2]
      have hpos : 0 < n := Nat.pos_of_ne_zero h0
      refine ⟨Or.inl rfl, ⟨fun _ => ⟨h2, hpos⟩, fun _ => rfl⟩, ?_, ?_, rfl⟩
      · exact ⟨fun hc => AttendanceStatus.noConfusion hc, fun hc => absurd hc (by omega)⟩
      · exact ⟨fun hc => AttendanceStatus.noConfusion hc, fun hc => absurd hc h0⟩
    · rw [if_neg h0, if_neg h2]
      refine ⟨Or.inr (Or.inr (Or.inl rfl)),
        ⟨fun hc => AttendanceStatus.noConfusion hc, fun hp => absurd hp.1 h2⟩,
        ⟨fun _ => by omega, fun _ => rfl⟩,
        ⟨fun hc => AttendanceStatus.noConfusion hc, fun hc => absurd hc h0⟩, rfl⟩

/-! ## The statistics loop -/

theorem updateStats_totalWorkingMinutes (s : LoopStats) (a : DailyAttendance) :
    (updateStats s a).totalWorkingMinutes =
      if a.status = AttendanceStatus.PRESENT then
        s.totalWorkingMinutes + (a.totalHours * 60 + a.totalMinutes)
      else s.totalWorkingMinutes := by
  unfold updateStats
  cases h : a.status <;> simp [h]

theorem updateStats_presentDays (s : LoopStats) (a : DailyAttendance) :
    (updateStats s a).presentDays =
      if a.status = AttendanceStatus.PRESENT then s.presentDays + 1 else s.presentDays := by
  unfold updateStats
  cases h : a.status <;> simp [h]

theorem updateStats_absentDays (s : LoopStats) (a : DailyAttendance) :
    (updateStats s a).absentDays =
      if a.status = AttendanceStatus.ABSENT then s.absentDays + 1 else s.absentDays := by
  unfold updateStats
  cases h : a.status <;> simp [h]

theorem updateStats_incompleteDays (s : LoopStats) (a : DailyAttendance) :
    (updateStats s a).incompleteDays =
      if a.status = AttendanceStatus.INCOMPLETE then s.incompleteDays + 1
      else s.incompleteDays := by
  unfold updateStats
  cases h : a.status <;> simp [h]

/-- The statistics loop accumulates exactly the filtered sums and counts of
the record sequence it traverses. -/
theorem foldl_updateStats (l : List DailyAttendance) (s : LoopStats) :
    (l.foldl updateStats s).totalWorkingMinutes =
        s.totalWorkingMinutes + presentWorkedSum l ∧
    (l.foldl updateStats s).presentDays = s.presentDays + presentCount l ∧
    (l.foldl updateStats s).absentDays =
        s.absentDays + l.countP (fun r => decide (r.status = AttendanceStatus.ABSENT)) ∧
    (l.foldl updateStats s).incompleteDays =
        s.incompleteDays +
          l.countP (fun r => decide (r.status = AttendanceStatus.INCOMPLETE)) := by
  induction l generalizing s with
  | nil => simp [presentWorkedSum, presentCount]
  | cons a l ih =>
    obtain ⟨ih1, ih2, ih3, ih4⟩ := ih (updateStats s a)
    simp only [List.foldl_cons]
    rw [ih1, ih2, ih3, ih4, updateStats_totalWorkingMinutes, updateStats_presentDays,
      updateStats_absentDays, updateStats_incompleteDays]
    simp only [presentWorkedSum, presentCount, List.filter_cons, List.countP_cons]
    cases h : a.status <;> simp [h] <;> and_intros <;> omega

/-- No record produced by the per-date loop carries the COMP status. -/
theorem dailyFor_status_ne_comp (userId : Int) (records : List RawAttendanceRecord)
    (s : AttendanceSettings) (d : CivilDate) :
    (dailyFor userId records s d).status ≠ AttendanceStatus.COMP := by
  intro hc
  rw [dailyFor_status] at hc
  split at hc
  · exact AttendanceStatus.noConfusion hc
  · split at hc
    · exact AttendanceStatus.noConfusion hc
    · exact AttendanceStatus.noConfusion hc

theorem countP_statuses (l : List DailyAttendance)
    (h : ∀ r ∈ l, r.status ≠ AttendanceStatus.COMP) :
    presentCount l + l.countP (fun r => decide (r.status = AttendanceStatus.ABSENT)) +
      l.countP (fun r => decide (r.status = AttendanceStatus.INCOMPLETE)) = l.length := by
  induction l with
  | nil => simp [presentCount]
  | cons a l ih =>
    have ha := h a (by simp)
    have ih' := ih (fun r hr => h r (by simp [hr]))
    simp only [presentCount, List.filter_cons, List.countP_cons, List.length_cons] at ih' ⊢
    cases hs : a.status
    · simp [hs]; omega
    · simp [hs]; omega
    · simp [hs]; omega
    · exact absurd hs ha

/-! ## Claim C10: the day counts partition the calendar -/

/-- C10.  The engine's summary satisfies
`presentDays + absentDays + incompleteDays = totalDays = dailyRecords.length`,
because this derivation path never emits a COMP record (and the summary it
returns carries no COMP count). -/
theorem c10_day_count_partition (userId : Int) (records : List RawAttendanceRecord)
    (settings : AttendanceSettings) :
    (calculateUserAttendance userId records settings).presentDays +
        (calculateUserAttendance userId records settings).absentDays +
        (calculateUserAttendance userId records settings).incompleteDays =
      (calculateUserAttendance userId records settings).totalDays ∧
    (calculateUserAttendance userId records settings).totalDays =
      (calculateUserAttendance userId records settings).dailyRecords.length ∧
    ∀ r ∈ (calculateUserAttendance userId records settings).dailyRecords,
      r.status ≠ AttendanceStatus.COMP := by
  cases hk : dateKeys records with
  | nil =>
    rw [calculateUserAttendance_eq_empty userId records settings hk]
    simp [emptySummary]
  | cons d ds =>
    rw [calculateUserAttendance_eq_core userId records settings d ds hk]
    simp only [calculateUserAttendanceCore]
    set l := (enumDates (monthStartOf (minByRata d ds)) (monthEndOf (maxByRata d ds))).map
      (dailyFor userId records settings) with hl
    have hcomp : ∀ r ∈ l, r.status ≠ AttendanceStatus.COMP := by
      intro r hr
      rw [hl] at hr
      rw [List.mem_map] at hr
      obtain ⟨x, _, hx⟩ := hr
      rw [← hx]
      exact dailyFor_status_ne_comp userId records settings x
    obtain ⟨h1, h2, h3, h4⟩ := foldl_updateStats l ⟨0, 0, 0, 0, 0, 0, 0⟩
    refine ⟨?_, by trivial, hcomp⟩
    rw [h2, h3, h4]
    have := countP_statuses l hcomp
    simp only [Nat.zero_add]
    omega

/-! ## Claim C6: summary totals and average -/

theorem jsRound2_zero : jsRound2 0 = 0 := by
  unfold jsRound2 jsRound
  norm_num

/-- C6.  The summary's working time is derived from the minutes worked on
PRESENT days only: `totalWorkingHours` is the floor of `totalMinutes / 60`,
`totalWorkingMinutes` is the minutes-of-hour remainder, and
`averageHoursPerDay` is `totalMinutes / 60 / presentDays` rounded to two
decimal places when `presentDays > 0` and exactly `0` when `presentDays = 0`
(no division by zero). -/
theorem c6_summary_totals (userId : Int) (records : List RawAttendanceRecord)
    (settings : AttendanceSettings) :
    (calculateUserAttendance userId records settings).presentDays =
        presentCount (calculateUserAttendance userId records settings).dailyRecords ∧
    (calculateUserAttendance userId records settings).totalWorkingHours =
        presentWorkedSum (calculateUserAttendance userId records settings).dailyRecords / 60 ∧
    (calculateUserAttendance userId records settings).totalWorkingMinutes =
        presentWorkedSum (calculateUserAttendance userId records settings).dailyRecords % 60 ∧
    (calculateUserAttendance userId records settings).averageHoursPerDay =
        (if 0 < presentCount (calculateUserAttendance userId records settings).dailyRecords then
          jsRound2
            ((presentWorkedSum (calculateUserAttendance userId records settings).dailyRecords : ℚ) /
              60 /
              (presentCount (calculateUserAttendance userId records settings).dailyRecords : ℚ))
        else 0) ∧
    ((calculateUserAttendance userId records settings).presentDays = 0 →
      (calculateUserAttendance userId records settings).averageHoursPerDay = 0) := by
  cases hk : dateKeys records with
  | nil =>
    rw [calculateUserAttendance_eq_empty userId records settings hk]
    simp [emptySummary, presentWorkedSum, presentCount]
  | cons d ds =>
    rw [calculateUserAttendance_eq_core userId records settings d ds hk]
    simp only [calculateUserAttendanceCore]
    set l := (enumDates (monthStartOf (minByRata d ds)) (monthEndOf (maxByRata d ds))).map
      (dailyFor userId records settings) with hl
    obtain ⟨h1, h2, h3, h4⟩ := foldl_updateStats l ⟨0, 0, 0, 0, 0, 0, 0⟩
    rw [h1, h2]
    simp only [Nat.zero_add]
    have hz : (0 : Int) + presentWorkedSum l = presentWorkedSum l := by omega
    rw [hz]
    refine ⟨by trivial, by trivial, by trivial, ?_, ?_⟩
    · by_cases hp : 0 < presentCount l
      · rw [if_pos hp, if_pos hp]
      · rw [if_neg hp, if_neg hp, jsRound2_zero]
    · intro hp0
      rw [if_neg (by omega), jsRound2_zero]

/-! ## Daily flag and duration lemmas -/

theorem sortByTimestamp_length (rs : List RawAttendanceRecord) :
    (sortByTimestamp rs).length = rs.length :=
  (List.perm_insertionSort (fun a b => instKey a ≤ instKey b) rs).length_eq

theorem calculateDailyAttendance_totalHours (date : CivilDate)
    (rs : List RawAttendanceRecord) (s : AttendanceSettings) :
    (calculateDailyAttendance date rs s).totalHours =
      pairDurations (sortByTimestamp rs) / 60 := by
  simp only [calculateDailyAttendance]

theorem calculateDailyAttendance_totalMinutes (date : CivilDate)
    (rs : List RawAttendanceRecord) (s : AttendanceSettings) :
    (calculateDailyAttendance date rs s).totalMinutes =
      pairDurations (sortByTimestamp rs) % 60 := by
  simp only [calculateDailyAttendance]

/-- The normalized `totalHours`/`totalMinutes` pair recombines to the day's
worked minutes. -/
theorem calculateDailyAttendance_worked (date : CivilDate)
    (rs : List RawAttendanceRecord) (s : AttendanceSettings) :
    (calculateDailyAttendance date rs s).totalHours * 60 +
        (calculateDailyAttendance date rs s).totalMinutes =
      pairDurations (sortByTimestamp rs) := by
  rw [calculateDailyAttendance_totalHours, calculateDailyAttendance_totalMinutes]
  omega

theorem calculateDailyAttendance_overtime (date : CivilDate)
    (rs : List RawAttendanceRecord) (s : AttendanceSettings) :
    (calculateDailyAttendance date rs s).overtime =
      if (calculateDailyAttendance date rs s).status = AttendanceStatus.PRESENT then
        max 0 (pairDurations (sortByTimestamp rs) - (s.workEndMinutes - s.workStartMinutes))
      else 0 := by
  simp only [calculateDailyAttendance]

theorem calculateDailyAttendance_isLate (date : CivilDate)
    (rs : List RawAttendanceRecord) (s : AttendanceSettings) :
    (calculateDailyAttendance date rs s).isLate =
      (decide ((calculateDailyAttendance date rs s).status = AttendanceStatus.PRESENT) &&
        (calculateDailyAttendance date rs s).firstIn.isSome &&
        decide (optTimeMinutes (calculateDailyAttendance date rs s).firstIn >
          s.workStartMinutes + s.lateThresholdMinutes)) := by
  simp only [calculateDailyAttendance]

theorem calculateDailyAttendance_isEarlyOut (date : CivilDate)
    (rs : List RawAttendanceRecord) (s : AttendanceSettings) :
    (calculateDailyAttendance date rs s).isEarlyOut =
      (decide ((calculateDailyAttendance date rs s).status = AttendanceStatus.PRESENT) &&
        (calculateDailyAttendance date rs s).lastOut.isSome &&
        decide (optTimeMinutes (calculateDailyAttendance date rs s).lastOut <
          s.workEndMinutes - s.earlyOutThresholdMinutes)) := by
  simp only [calculateDailyAttendance]

theorem calculateDailyAttendance_firstIn_isSome (date : CivilDate)
    (rs : List RawAttendanceRecord) (s : AttendanceSettings) (h : rs.length ≠ 0) :
    (calculateDailyAttendance date rs s).firstIn.isSome = true := by
  simp only [calculateDailyAttendance]
  rw [Option.isSome_map']
  rw [Option.isSome_iff_ne_none]
  intro hc
  rw [List.head?_eq_none_iff] at hc
  have := congrArg List.length hc
  simp only [List.length_map, List.enum_length, sortByTimestamp_length,
    List.length_nil] at this
  exact h this

theorem calculateDailyAttendance_lastOut_isSome (date : CivilDate)
    (rs : List RawAttendanceRecord) (s : AttendanceSettings) (h : 2 ≤ rs.length) :
    (calculateDailyAttendance date rs s).lastOut.isSome = true := by
  simp only [calculateDailyAttendance]
  have hlen : ((sortByTimestamp rs).enum.map
      (mkPunch (sortByTimestamp rs).length)).length = rs.length := by
    simp only [List.length_map, List.enum_length, sortByTimestamp_length]
  rw [if_pos (by omega)]
  rw [Option.isSome_map']
  rw [Option.isSome_iff_ne_none]
  intro hc
  rw [List.getLast?_eq_none_iff] at hc
  rw [hc] at hlen
  simp only [List.length_nil] at hlen
  omega

/-! ## Claim C5: lateness, early-out and overtime flags -/

/-- C5.  For every record the engine emits: `isLate` holds exactly when the
day is PRESENT and the first-in time strictly exceeds
`workStartTime + lateThresholdMinutes`; `isEarlyOut` exactly when the day is
PRESENT and the last-out time is strictly below
`workEndTime - earlyOutThresholdMinutes`; `overtime` is
`max 0 (worked - (workEndTime - workStartTime))` on PRESENT days and `0`
otherwise; and PRESENT days always carry a first-in and a last-out time. -/
theorem c5_flags (userId : Int) (records : List RawAttendanceRecord)
    (settings : AttendanceSettings) (rec : DailyAttendance)
    (h : rec ∈ (calculateUserAttendance userId records settings).dailyRecords) :
    (rec.isLate = true ↔
      rec.status = AttendanceStatus.PRESENT ∧
        optTimeMinutes rec.firstIn >
          settings.workStartMinutes + settings.lateThresholdMinutes) ∧
    (rec.isEarlyOut = true ↔
      rec.status = AttendanceStatus.PRESENT ∧
        optTimeMinutes rec.lastOut <
          settings.workEndMinutes - settings.earlyOutThresholdMinutes) ∧
    (rec.overtime =
      if rec.status = AttendanceStatus.PRESENT then
        max 0 ((rec.totalHours * 60 + rec.totalMinutes) -
          (settings.workEndMinutes - settings.workStartMinutes))
      else 0) ∧
    (rec.status = AttendanceStatus.PRESENT →
      rec.firstIn.isSome = true ∧ rec.lastOut.isSome = true) := by
  obtain ⟨d, rfl⟩ := mem_dailyRecords userId records settings rec h
  rw [dailyFor_eq]
  split
  · rename_i hpos
    set rs := recordsForDate records d with hrs
    have hsome : (calculateDailyAttendance d rs settings).status = AttendanceStatus.PRESENT →
        (calculateDailyAttendance d rs settings).firstIn.isSome = true ∧
        (calculateDailyAttendance d rs settings).lastOut.isSome = true := by
      intro hP
      rw [calculateDailyAttendance_status] at hP
      have hlen : rs.length % 2 = 0 ∧ rs.length ≠ 0 := by
        by_cases h0 : rs.length = 0
        · rw [if_pos h0] at hP
          exact absurd hP (by intro hc; exact AttendanceStatus.noConfusion hc)
        · rw [if_neg h0] at hP
          by_cases h2 : rs.length % 2 = 0
          · exact ⟨h2, h0⟩
          · rw [if_neg h2] at hP
            exact absurd hP (by intro hc; exact AttendanceStatus.noConfusion hc)
      exact ⟨calculateDailyAttendance_firstIn_isSome d rs settings hlen.2,
        calculateDailyAttendance_lastOut_isSome d rs settings (by omega)⟩
    refine ⟨?_, ?_, ?_, hsome⟩
    · rw [calculateDailyAttendance_isLate]
      simp only [Bool.and_eq_true, decide_eq_true_eq]
      constructor
      · rintro ⟨⟨hP, _⟩, hgt⟩
        exact ⟨hP, hgt⟩
      · rintro ⟨hP, hgt⟩
        exact ⟨⟨hP, (hsome hP).1⟩, hgt⟩
    · rw [calculateDailyAttendance_isEarlyOut]
      simp only [Bool.and_eq_true, decide_eq_true_eq]
      constructor
      · rintro ⟨⟨hP, _⟩, hlt⟩
        exact ⟨hP, hlt⟩
      · rintro ⟨hP, hlt⟩
        exact ⟨⟨hP, (hsome hP).2⟩, hlt⟩
    · rw [calculateDailyAttendance_overtime, calculateDailyAttendance_worked]
  · simp [absentDaily, optTimeMinutes]

/-! ## Claim C4: punch classification and pairing -/

theorem calculateDailyAttendance_punches (date : CivilDate)
    (rs : List RawAttendanceRecord) (s : AttendanceSettings) :
    (calculateDailyAttendance date rs s).punches =
      (sortByTimestamp rs).enum.map (mkPunch (sortByTimestamp rs).length) := by
  simp only [calculateDailyAttendance]

/-- C4.  On a day with at least one punch, the punch at 0-based even index of
the sorted day list is typed IN and at odd index OUT, and a punch is
`isPaired` exactly when it sits at an odd index or at an even index followed
by another punch; consequently on an even-count day every punch is paired and
on an odd-count day exactly the last punch is unpaired. -/
theorem c4_pairing (date : CivilDate) (records : List RawAttendanceRecord)
    (settings : AttendanceSettings) (h : records ≠ []) :
    (calculateDailyAttendance date records settings).punches.length = records.length ∧
    0 < records.length ∧
    ∀ i (hi : i < (calculateDailyAttendance date records settings).punches.length),
      ((calculateDailyAttendance date records settings).punches[i]).type =
        (if i % 2 = 0 then PunchType.IN else PunchType.OUT) ∧
      (((calculateDailyAttendance date records settings).punches[i]).isPaired = true ↔
        (i % 2 = 1 ∨ (i % 2 = 0 ∧ i + 1 < records.length))) ∧
      (records.length % 2 = 0 →
        ((calculateDailyAttendance date records settings).punches[i]).isPaired = true) ∧
      (records.length % 2 = 1 →
        (((calculateDailyAttendance date records settings).punches[i]).isPaired = true ↔
          i + 1 ≠ records.length)) := by
  have hlen : (calculateDailyAttendance date records settings).punches.length =
      records.length := calculateDailyAttendance_punches_length date records settings
  refine ⟨hlen, List.length_pos.mpr h, ?_⟩
  intro i hi
  have hi' : i < records.length := by omega
  have hget : ((calculateDailyAttendance date records settings).punches[i]) =
      mkPunch (sortByTimestamp records).length
        (i, (sortByTimestamp records).getD i defaultRecord) := by
    simp only [calculateDailyAttendance_punches, List.getElem_map, List.getElem_enum]
    have hb : i < (sortByTimestamp records).length := by
      rw [sortByTimestamp_length]; exact hi'
    congr 1
    rw [List.getD_eq_getElem]
  rw [hget]
  simp only [mkPunch, sortByTimestamp_length]
  have hiff : ((if i % 2 = 0 then decide (i + 1 < records.length) else true) = true ↔
      (i % 2 = 1 ∨ (i % 2 = 0 ∧ i + 1 < records.length))) := by
    by_cases h2 : i % 2 = 0
    · rw [if_pos h2]
      simp only [decide_eq_true_eq]
      constructor
      · intro hlt; exact Or.inr ⟨h2, hlt⟩
      · rintro (h1 | ⟨_, hlt⟩)
        · omega
        · exact hlt
    · rw [if_neg h2]
      simp only [true_iff]
      exact Or.inl (by omega)
  refine ⟨by trivial, hiff, ?_, ?_⟩
  · intro heven
    rw [hiff]
    by_cases h2 : i % 2 = 0
    · exact Or.inr ⟨h2, by omega⟩
    · exact Or.inl (by omega)
  · intro hodd
    rw [hiff]
    constructor
    · rintro (h1 | ⟨h2, hlt⟩) <;> omega
    · intro hne
      by_cases h2 : i % 2 = 0
      · exact Or.inr ⟨h2, by omega⟩
      · exact Or.inl (by omega)

/-! ## Claim C3: the pair-based duration rule -/

/-- The working-minutes loop computes exactly the specification's sum over
the consecutive (even, odd) index pairs. -/
theorem pairDurations_eq_spec : ∀ l : List RawAttendanceRecord,
    pairDurations l = specPairSum l
  | [] => by simp [pairDurations, specPairSum]
  | [a] => by simp [pairDurations, specPairSum]
  | a :: b :: rest => by
    have ih := pairDurations_eq_spec rest
    show max 0 ((timeToMinutes (formatTime b) : Int) - (timeToMinutes (formatTime a) : Int)) +
      pairDurations rest = _
    rw [ih]
    unfold specPairSum
    have hlen : (a :: b :: rest).length / 2 = rest.length / 2 + 1 := by
      simp only [List.length_cons]
      omega
    rw [hlen, List.range_succ_eq_map]
    simp only [List.map_cons, List.sum_cons, List.map_map]
    have hhead : (2 : Nat) * 0 + 1 = 1 := by omega
    have h0 : ((a :: b :: rest).getD (2 * 0) defaultRecord) = a := by
      norm_num
    have h1 : ((a :: b :: rest).getD (2 * 0 + 1) defaultRecord) = b := by
      norm_num
    rw [h0, h1]
    have hmap : List.map
        ((fun i => max 0
          ((timeToMinutes (formatTime ((a :: b :: rest).getD (2 * i + 1) defaultRecord)) : Int) -
            (timeToMinutes (formatTime ((a :: b :: rest).getD (2 * i) defaultRecord)) : Int))) ∘
          Nat.succ) (List.range (rest.length / 2)) =
        List.map (fun i => max 0
          ((timeToMinutes (formatTime (rest.getD (2 * i + 1) defaultRecord)) : Int) -
            (timeToMinutes (formatTime (rest.getD (2 * i) defaultRecord)) : Int)))
          (List.range (rest.length / 2)) := by
      apply List.map_congr_left
      intro x _
      simp only [Function.comp]
      have e1 : 2 * Nat.succ x + 1 = (2 * x + 1) + 1 + 1 := by omega
      have e2 : 2 * Nat.succ x = (2 * x) + 1 + 1 := by omega
      rw [e1, e2, List.getD_cons_succ, List.getD_cons_succ, List.getD_cons_succ,
        List.getD_cons_succ]
    rw [hmap]
termination_by l => l.length

/-- The pairwise duration total is never negative. -/
theorem pairDurations_nonneg : ∀ l : List RawAttendanceRecord, 0 ≤ pairDurations l
  | [] => le_refl 0
  | [_] => le_refl 0
  | a :: b :: rest => by
    have ih := pairDurations_nonneg rest
    show (0 : Int) ≤ max 0 ((timeToMinutes (formatTime b) : Int) -
      (timeToMinutes (formatTime a) : Int)) + pairDurations rest
    have hm := le_max_left (0 : Int)
      ((timeToMinutes (formatTime b) : Int) - (timeToMinutes (formatTime a) : Int))
    omega
termination_by l => l.length

theorem sortByTimestamp_sorted (records : List RawAttendanceRecord) :
    List.Pairwise (fun a b => instKey a ≤ instKey b) (sortByTimestamp records) := by
  haveI htot : IsTotal RawAttendanceRecord (fun a b => instKey a ≤ instKey b) :=
    ⟨fun a b => Nat.le_total (instKey a) (instKey b)⟩
  haveI htr : IsTrans RawAttendanceRecord (fun a b => instKey a ≤ instKey b) :=
    ⟨fun _ _ _ hab hbc => Nat.le_trans hab hbc⟩
  exact List.sorted_insertionSort (fun a b => instKey a ≤ instKey b) records

/-- C3.  On a day with at least one punch, the engine's worked time (in
minutes, recombined from `totalHours`/`totalMinutes`) is exactly the sum of
`max 0 (out - in)` over the consecutive (even, odd) index pairs of the day's
punches sorted ascending by instant — the unpaired trailing punch of an
odd-count day contributing nothing — and that total is never negative. -/
theorem c3_duration (date : CivilDate) (records : List RawAttendanceRecord)
    (settings : AttendanceSettings) (h : records ≠ []) :
    List.Pairwise (fun a b => instKey a ≤ instKey b) (sortByTimestamp records) ∧
    (sortByTimestamp records).length = records.length ∧ 0 < records.length ∧
    (calculateDailyAttendance date records settings).totalHours * 60 +
        (calculateDailyAttendance date records settings).totalMinutes =
      specPairSum (sortByTimestamp records) ∧
    0 ≤ specPairSum (sortByTimestamp records) := by
  refine ⟨sortByTimestamp_sorted records, sortByTimestamp_length records,
    List.length_pos.mpr h, ?_, ?_⟩
  · rw [calculateDailyAttendance_worked, pairDurations_eq_spec]
  · rw [← pairDurations_eq_spec]
    exact pairDurations_nonneg _

/-! ## Claim C1: calendar completeness -/

theorem minByRata_spec (d : CivilDate) (ds : List CivilDate) :
    (minByRata d ds = d ∨ minByRata d ds ∈ ds) ∧
    rata (minByRata d ds) ≤ rata d ∧ ∀ x ∈ ds, rata (minByRata d ds) ≤ rata x := by
  induction ds generalizing d with
  | nil => simp [minByRata]
  | cons a l ih =>
    have hstep : minByRata d (a :: l) = minByRata (if rata a < rata d then a else d) l := rfl
    by_cases hc : rata a < rata d
    · rw [if_pos hc] at hstep
      rw [hstep]
      obtain ⟨ih1, ih2, ih3⟩ := ih a
      refine ⟨?_, by omega, ?_⟩
      · rcases ih1 with h1 | h1
        · exact Or.inr (by rw [h1]; exact List.mem_cons_self a l)
        · exact Or.inr (List.mem_cons_of_mem a h1)
      · intro x hx
        rcases List.mem_cons.mp hx with rfl | hx
        · exact ih2
        · exact ih3 x hx
    · rw [if_neg hc] at hstep
      rw [hstep]
      obtain ⟨ih1, ih2, ih3⟩ := ih d
      refine ⟨?_, ih2, ?_⟩
      · rcases ih1 with h1 | h1
        · exact Or.inl h1
        · exact Or.inr (List.mem_cons_of_mem a h1)
      · intro x hx
        rcases List.mem_cons.mp hx with rfl | hx
        · omega
        · exact ih3 x hx

theorem maxByRata_spec (d : CivilDate) (ds : List CivilDate) :
    (maxByRata d ds = d ∨ maxByRata d ds ∈ ds) ∧
    rata d ≤ rata (maxByRata d ds) ∧ ∀ x ∈ ds, rata x ≤ rata (maxByRata d ds) := by
  induction ds generalizing d with
  | nil => simp [maxByRata]
  | cons a l ih =>
    have hstep : maxByRata d (a :: l) = maxByRata (if rata d < rata a then a else d) l := rfl
    by_cases hc : rata d < rata a
    · rw [if_pos hc] at hstep
      rw [hstep]
      obtain ⟨ih1, ih2, ih3⟩ := ih a
      refine ⟨?_, by omega, ?_⟩
      · rcases ih1 with h1 | h1
        · exact Or.inr (by rw [h1]; exact List.mem_cons_self a l)
        · exact Or.inr (List.mem_cons_of_mem a h1)
      · intro x hx
        rcases List.mem_cons.mp hx with rfl | hx
        · exact ih2
        · exact ih3 x hx
    · rw [if_neg hc] at hstep
      rw [hstep]
      obtain ⟨ih1, ih2, ih3⟩ := ih d
      refine ⟨?_, ih2, ?_⟩
      · rcases ih1 with h1 | h1
        · exact Or.inl h1
        · exact Or.inr (List.mem_cons_of_mem a h1)
      · intro x hx
        rcases List.mem_cons.mp hx with rfl | hx
        · omega
        · exact ih3 x hx

theorem monthStartOf_valid (d : CivilDate) (hv : d.Valid) : (monthStartOf d).Valid := by
  obtain ⟨hy, hm1, hm12, _, _⟩ := hv
  exact ⟨hy, hm1, hm12, le_refl 1, daysInMonth_pos d.year d.month⟩

theorem monthEndOf_valid (d : CivilDate) (hv : d.Valid) : (monthEndOf d).Valid := by
  obtain ⟨hy, hm1, hm12, _, _⟩ := hv
  exact ⟨hy, hm1, hm12, daysInMonth_pos d.year d.month, le_refl _⟩

theorem rata_monthStartOf_le (d : CivilDate) (hv : d.Valid) :
    rata (monthStartOf d) ≤ rata d := by
  obtain ⟨_, _, _, hd1, _⟩ := hv
  show daysBeforeYear d.year + daysBeforeMonth d.year d.month + 1 ≤
    daysBeforeYear d.year + daysBeforeMonth d.year d.month + d.day
  omega

theorem rata_le_monthEndOf (d : CivilDate) (hv : d.Valid) :
    rata d ≤ rata (monthEndOf d) := by
  obtain ⟨_, _, _, _, hdm⟩ := hv
  show daysBeforeYear d.year + daysBeforeMonth d.year d.month + d.day ≤
    daysBeforeYear d.year + daysBeforeMonth d.year d.month + daysInMonth d.year d.month
  omega

/-- C1.  For a nonempty punch set (with real calendar dates, as `formatDate`
always produces), the engine's daily-record sequence carries the calendar
dates from the first day of the month of the earliest punch date through the
last day of the month of the latest punch date: their ranks form the exact
consecutive range (ascending, no gaps), there are no duplicates, and every
real calendar date in that closed interval occurs exactly once — dates with
zero punches included. -/
theorem c1_calendar_completeness (userId : Int) (records : List RawAttendanceRecord)
    (settings : AttendanceSettings) (hne : records ≠ [])
    (hval : ∀ r ∈ records, (RawAttendanceRecord.date r).Valid) :
    ∃ e lt : CivilDate,
      e ∈ records.map (fun r => r.date) ∧
      lt ∈ records.map (fun r => r.date) ∧
      (∀ r ∈ records, rata e ≤ rata r.date ∧ rata r.date ≤ rata lt) ∧
      ((calculateUserAttendance userId records settings).dailyRecords.map
          (fun r => r.date)).map rata =
        List.range' (rata (monthStartOf e))
          (rata (monthEndOf lt) + 1 - rata (monthStartOf e)) ∧
      ((calculateUserAttendance userId records settings).dailyRecords.map
          (fun r => r.date)).Nodup ∧
      ∀ dd : CivilDate, dd.Valid → rata (monthStartOf e) ≤ rata dd →
        rata dd ≤ rata (monthEndOf lt) →
        ((calculateUserAttendance userId records settings).dailyRecords.map
          (fun r => r.date)).count dd = 1 := by
  have hkeys : ∀ x : CivilDate, x ∈ dateKeys records ↔ x ∈ records.map (fun r => r.date) := by
    intro x
    unfold dateKeys
    exact List.mem_dedup
  cases hk : dateKeys records with
  | nil =>
    exfalso
    have : records.map (fun r => r.date) = [] := by
      unfold dateKeys at hk
      exact (List.dedup_eq_nil _).mp hk
    exact hne (List.map_eq_nil_iff.mp this)
  | cons d ds =>
    rw [calculateUserAttendance_eq_core userId records settings d ds hk]
    simp only [calculateUserAttendanceCore]
    obtain ⟨hmem_min, hmin_d, hmin_ds⟩ := minByRata_spec d ds
    obtain ⟨hmem_max, hmax_d, hmax_ds⟩ := maxByRata_spec d ds
    refine ⟨minByRata d ds, maxByRata d ds, ?_, ?_, ?_, ?_, ?_, ?_⟩
    · rw [← hkeys, hk]
      rcases hmem_min with h1 | h1
      · rw [h1]; exact List.mem_cons_self d ds
      · exact List.mem_cons_of_mem d h1
    · rw [← hkeys, hk]
      rcases hmem_max with h1 | h1
      · rw [h1]; exact List.mem_cons_self d ds
      · exact List.mem_cons_of_mem d h1
    all_goals {
      have hvalid_min : (minByRata d ds).Valid := by
        have hmem : minByRata d ds ∈ records.map (fun r => r.date) := by
          rw [← hkeys, hk]
          rcases hmem_min with h1 | h1
          · rw [h1]; exact List.mem_cons_self d ds
          · exact List.mem_cons_of_mem d h1
        obtain ⟨r, hr, hrd⟩ := List.mem_map.mp hmem
        rw [← hrd]
        exact hval r hr
      have hvalid_max : (maxByRata d ds).Valid := by
        have hmem : maxByRata d ds ∈ records.map (fun r => r.date) := by
          rw [← hkeys, hk]
          rcases hmem_max with h1 | h1
          · rw [h1]; exact List.mem_cons_self d ds
          · exact List.mem_cons_of_mem d h1
        obtain ⟨r, hr, hrd⟩ := List.mem_map.mp hmem
        rw [← hrd]
        exact hval r hr
      have hbound : ∀ r ∈ records, rata (minByRata d ds) ≤ rata r.date ∧
          rata r.date ≤ rata (maxByRata d ds) := by
        intro r hr
        have hdm : r.date ∈ dateKeys records := by
          rw [hkeys]
          exact List.mem_map.mpr ⟨r, hr, rfl⟩
        rw [hk] at hdm
        rcases List.mem_cons.mp hdm with he | he
        · rw [he]
          exact ⟨hmin_d, hmax_d⟩
        · exact ⟨hmin_ds _ he, hmax_ds _ he⟩
      have hstart_valid : (monthStartOf (minByRata d ds)).Valid :=
        monthStartOf_valid _ hvalid_min
      have hdates : ((enumDates (monthStartOf (minByRata d ds))
            (monthEndOf (maxByRata d ds))).map
            (dailyFor userId records settings)).map (fun r => r.date) =
          enumDates (monthStartOf (minByRata d ds)) (monthEndOf (maxByRata d ds)) := by
        rw [List.map_map]
        have h1 : ∀ x ∈ enumDates (monthStartOf (minByRata d ds))
            (monthEndOf (maxByRata d ds)),
            ((fun r : DailyAttendance => r.date) ∘ dailyFor userId records settings) x =
              id x := by
          intro x _
          exact dailyFor_date userId records settings x
        rw [List.map_congr_left h1, List.map_id]
      first
      | exact hbound
      | (rw [hdates]
         first
         | exact enumDates_map_rata _ _ hstart_valid
         | exact enumDates_nodup _ _ hstart_valid
         | (intro dd hddv h1 h2
            exact enumDates_count _ _ hstart_valid dd hddv h1 h2))
    }

/-! ## Claim C7: trailing punch-line fields -/

theorem splitTokens_ne_empty (line : String) :
    ∀ s ∈ splitTokens line, ¬ s.data.isEmpty = true := by
  intro s hs
  unfold splitTokens at hs
  rw [List.mem_filter] at hs
  have h2 := hs.2
  rw [Bool.not_eq_true'] at h2
  intro hc
  rw [hc] at h2
  exact Bool.noConfusion h2

theorem expectedTrailing_ne_zero (parts : List String) (i : Nat) (d : Int)
    (hd : d ≠ 0) : expectedTrailing parts i d ≠ 0 := by
  unfold expectedTrailing
  cases parts.get? i with
  | none => exact hd
  | some tok =>
    show (match parseIntJs tok with
      | none => d
      | some v => if v = 0 then d else v) ≠ (0 : Int)
    cases parseIntJs tok with
    | none => exact hd
    | some v =>
      show (if v = 0 then d else v) ≠ (0 : Int)
      by_cases hv : v = 0
      · rw [if_pos hv]; exact hd
      · rw [if_neg hv]; exact hv

/-- On a token list without empty tokens (as `splitTokens` produces), the
source's `parseInt(tok || dfltTok) || dfltVal` computes the amended claim's
field semantics. -/
theorem trailingField_eq_expected (parts : List String)
    (hne : ∀ s ∈ parts, ¬ s.data.isEmpty = true)
    (i : Nat) (dfltTok : String) (dfltVal : Int)
    (htok : ¬ dfltTok.data.isEmpty = true)
    (hd : parseIntJs dfltTok = some dfltVal) :
    trailingField parts i dfltTok dfltVal = expectedTrailing parts i dfltVal := by
  unfold trailingField expectedTrailing
  rw [List.getD_eq_getElem?_getD, ← List.get?_eq_getElem?]
  cases hget : parts.get? i with
  | none =>
    simp only [Option.getD_none]
    rw [if_neg htok, hd]
    by_cases hz : dfltVal = 0 <;> simp [hz]
  | some tok =>
    simp only [Option.getD_some]
    rw [if_neg (hne tok (List.get?_mem hget))]

theorem parseLine_eq (line : String) :
    parseLine line =
      (if (splitTokens line).length < 2 then none
       else
        match parseIntJs (trimJs ((splitTokens line).getD 0 "")) with
        | none => none
        | some userId =>
          match parseTimestampJs (resolveTimestamp (splitTokens line)).1 with
          | none => none
          | some dt =>
            some { userId := userId, date := dt.1, hour := dt.2.hour,
                   minute := dt.2.minute, second := dt.2.second,
                   verificationType :=
                     trailingField (splitTokens line)
                       (resolveTimestamp (splitTokens line)).2 "1" 1,
                   inOutStatus :=
                     trailingField (splitTokens line)
                       ((resolveTimestamp (splitTokens line)).2 + 1) "0" 0,
                   workCode :=
                     trailingField (splitTokens line)
                       ((resolveTimestamp (splitTokens line)).2 + 2) "1" 1,
                   reserved :=
                     trailingField (splitTokens line)
                       ((resolveTimestamp (splitTokens line)).2 + 3) "0" 0 }) := rfl

/-- C7 (amended).  For every successfully parsed punch line, each of the four
trailing fields takes its default (1, 0, 1, 0 respectively) when its token is
missing, non-numeric, or parses to the number zero, and takes the token's
value when that value is nonzero; in particular the verification type and
work code are never 0 — a literal "0" token yields the default 1. -/
theorem c7_trailing_fields (line : String) (r : RawAttendanceRecord)
    (h : parseLine line = some r) :
    r.verificationType =
        expectedTrailing (splitTokens line) (resolveTimestamp (splitTokens line)).2 1 ∧
    r.inOutStatus =
        expectedTrailing (splitTokens line) ((resolveTimestamp (splitTokens line)).2 + 1) 0 ∧
    r.workCode =
        expectedTrailing (splitTokens line) ((resolveTimestamp (splitTokens line)).2 + 2) 1 ∧
    r.reserved =
        expectedTrailing (splitTokens line) ((resolveTimestamp (splitTokens line)).2 + 3) 0 ∧
    r.verificationType ≠ 0 ∧ r.workCode ≠ 0 := by
  rw [parseLine_eq] at h
  have hne := splitTokens_ne_empty line
  split at h
  · exact Option.noConfusion h
  · split at h
    · exact Option.noConfusion h
    · split at h
      · exact Option.noConfusion h
      · rename_i userId _ dt _
        rw [Option.some.injEq] at h
        subst h
        have e1 := trailingField_eq_expected (splitTokens line) hne
          (resolveTimestamp (splitTokens line)).2 "1" 1 (by decide) (by decide)
        have e2 := trailingField_eq_expected (splitTokens line) hne
          ((resolveTimestamp (splitTokens line)).2 + 1) "0" 0 (by decide) (by decide)
        have e3 := trailingField_eq_expected (splitTokens line) hne
          ((resolveTimestamp (splitTokens line)).2 + 2) "1" 1 (by decide) (by decide)
        have e4 := trailingField_eq_expected (splitTokens line) hne
          ((resolveTimestamp (splitTokens line)).2 + 3) "0" 0 (by decide) (by decide)
        refine ⟨e1, e2, e3, e4, ?_, ?_⟩
        · rw [e1]
          exact expectedTrailing_ne_zero _ _ 1 (by decide)
        · rw [e3]
          exact expectedTrailing_ne_zero _ _ 1 (by decide)

/-- C7 counterexample.  The line `"5\t2025-12-01 09:47:09\t0"` parses
successfully and its verification-type token is the numeric string "0", yet
the resulting record's `verificationType` is 1, not 0: `parseInt("0") || 1`
coalesces the falsy 0 into the default. -/
theorem c7_counterexample :
    (parseLine zeroVerificationLine).map RawAttendanceRecord.verificationType = some 1 ∧
    (splitTokens zeroVerificationLine).getD
        (resolveTimestamp (splitTokens zeroVerificationLine)).2 "" = "0" ∧
    (1 : Int) ≠ 0 :=
  ⟨by decide, by decide, by decide⟩

theorem c7_witness :
    sampleLineRecord.verificationType =
        expectedTrailing (splitTokens sampleLine)
          (resolveTimestamp (splitTokens sampleLine)).2 1 ∧
    sampleLineRecord.inOutStatus =
        expectedTrailing (splitTokens sampleLine)
          ((resolveTimestamp (splitTokens sampleLine)).2 + 1) 0 ∧
    sampleLineRecord.workCode =
        expectedTrailing (splitTokens sampleLine)
          ((resolveTimestamp (splitTokens sampleLine)).2 + 2) 1 ∧
    sampleLineRecord.reserved =
        expectedTrailing (splitTokens sampleLine)
          ((resolveTimestamp (splitTokens sampleLine)).2 + 3) 0 ∧
    sampleLineRecord.verificationType ≠ 0 ∧ sampleLineRecord.workCode ≠ 0 :=
  c7_trailing_fields sampleLine sampleLineRecord (by decide)

/-! ## Claim C8: directory employee-id extraction -/

theorem firstTerminatedRunId_none (bs : List Nat) (h : bs.dropWhile isDigitByte = []) :
    firstTerminatedRunId bs = none := by
  cases bs with
  | nil =>
    unfold firstTerminatedRunId
    rfl
  | cons b rest =>
    rw [List.dropWhile_cons] at h
    by_cases hb : isDigitByte b = true
    · rw [if_pos hb] at h
      unfold firstTerminatedRunId
      rw [if_pos hb]
      split
      · rfl
      · rename_i t rest2 heq
        rw [h] at heq
        exact List.noConfusion heq
    · rw [if_neg hb] at h
      exact List.noConfusion h

theorem firstTerminatedRunId_cons (bs : List Nat) (t : Nat) (rest2 : List Nat)
    (h : bs.dropWhile isDigitByte = t :: rest2) :
    firstTerminatedRunId bs =
      (if 0 < digitsVal (bs.takeWhile isDigitByte) then
        some (digitsVal (bs.takeWhile isDigitByte))
      else firstTerminatedRunId rest2) := by
  cases bs with
  | nil => exact List.noConfusion h
  | cons b rest =>
    rw [List.dropWhile_cons] at h
    by_cases hb : isDigitByte b = true
    · rw [if_pos hb] at h
      rw [List.takeWhile_cons, if_pos hb]
      conv_lhs => unfold firstTerminatedRunId
      rw [if_pos hb]
      split
      · rename_i heq
        rw [heq] at h
        exact List.noConfusion h
      · rename_i t' rest2' heq
        rw [h] at heq
        injection heq with h1 h2
        subst h2
        rfl
    · rw [if_neg hb] at h
      injection h with h1 h2
      subst h1
      subst h2
      rw [List.takeWhile_cons, if_neg hb]
      conv_lhs => unfold firstTerminatedRunId
      rw [if_neg hb]
      rw [if_neg (by decide : ¬ 0 < digitsVal ([] : List Nat))]

/-- The accumulator-based scanning loop of the source computes, for any
digit-only accumulator state, the terminated-run semantics. -/
theorem scanUserId_spec (bs : List Nat) : ∀ acc : List Nat,
    (bs.dropWhile isDigitByte = [] → scanUserId bs acc = none) ∧
    (∀ t rest2, bs.dropWhile isDigitByte = t :: rest2 →
      scanUserId bs acc =
        (if 0 < digitsVal (acc ++ bs.takeWhile isDigitByte) then
          some (digitsVal (acc ++ bs.takeWhile isDigitByte))
        else firstTerminatedRunId rest2)) := by
  induction bs with
  | nil =>
    intro acc
    refine ⟨fun _ => rfl, ?_⟩
    intro t rest2 h
    rw [List.dropWhile_nil] at h
    exact List.noConfusion h
  | cons b rest ih =>
    intro acc
    by_cases hb : isDigitByte b = true
    · have hscan : scanUserId (b :: rest) acc = scanUserId rest (acc ++ [b]) := by
        show (if isDigitByte b = true then scanUserId rest (acc ++ [b])
          else if 0 < acc.length then
            (if 0 < digitsVal acc then some (digitsVal acc) else scanUserId rest [])
          else scanUserId rest []) = scanUserId rest (acc ++ [b])
        rw [if_pos hb]
      constructor
      · intro h
        rw [List.dropWhile_cons, if_pos hb] at h
        rw [hscan]
        exact (ih (acc ++ [b])).1 h
      · intro t rest2 h
        rw [List.dropWhile_cons, if_pos hb] at h
        rw [hscan, (ih (acc ++ [b])).2 t rest2 h]
        rw [List.takeWhile_cons, if_pos hb]
        simp only [List.append_assoc, List.singleton_append]
    · constructor
      · intro h
        rw [List.dropWhile_cons, if_neg hb] at h
        exact List.noConfusion h
      · intro t rest2 h
        rw [List.dropWhile_cons, if_neg hb] at h
        injection h with h1 h2
        subst h1
        subst h2
        rw [List.takeWhile_cons, if_neg hb, List.append_nil]
        have hscan_fti : scanUserId rest [] = firstTerminatedRunId rest := by
          cases hrest : rest.dropWhile isDigitByte with
          | nil => rw [(ih []).1 hrest, firstTerminatedRunId_none rest hrest]
          | cons t' r2 =>
            rw [(ih []).2 t' r2 hrest, firstTerminatedRunId_cons rest t' r2 hrest,
              List.nil_append]
        show (if isDigitByte b = true then scanUserId rest (acc ++ [b])
          else if 0 < acc.length then
            (if 0 < digitsVal acc then some (digitsVal acc) else scanUserId rest [])
          else scanUserId rest []) = _
        rw [if_neg hb]
        by_cases hval : 0 < digitsVal acc
        · have hlen : 0 < acc.length := by
            rcases acc with _ | ⟨x, xs⟩
            · exact absurd hval (by decide)
            · simp
          rw [if_pos hlen, if_pos hval, if_pos hval]
        · by_cases hlen : 0 < acc.length
          · rw [if_pos hlen, if_neg hval, if_neg hval, hscan_fti]
          · rw [if_neg hlen, if_neg hval, hscan_fti]

/-- The source's accumulating digit scan equals the amended claim's
first-terminated-run extraction. -/
theorem scanUserId_eq_firstTerminatedRunId (bs : List Nat) :
    scanUserId bs [] = firstTerminatedRunId bs := by
  cases hbs : bs.dropWhile isDigitByte with
  | nil => rw [(scanUserId_spec bs []).1 hbs, firstTerminatedRunId_none bs hbs]
  | cons t rest2 =>
    rw [(scanUserId_spec bs []).2 t rest2 hbs, firstTerminatedRunId_cons bs t rest2 hbs,
      List.nil_append]

theorem parseRecord_eq (record : List Nat) (index : Nat) :
    parseRecord record index =
      (match findNameStart record with
       | none => none
       | some nameStartIndex =>
         if (trimChars ((nameBytes record nameStartIndex).map (fun b => Char.ofNat b))).isEmpty
         then none
         else
           match scanUserId (record.drop (nameStartIndex +
               (trimChars ((nameBytes record nameStartIndex).map
                 (fun b => Char.ofNat b))).length)) [] with
           | some uid =>
             some ⟨uid, String.mk (trimChars ((nameBytes record nameStartIndex).map
               (fun b => Char.ofNat b)))⟩
           | none =>
             some ⟨index + 1, String.mk (trimChars ((nameBytes record nameStartIndex).map
               (fun b => Char.ofNat b)))⟩) := rfl

/-- C8 (amended).  For every directory record from which a name is extracted,
the employee id is the value of the first digit run after the name that is
terminated by a non-digit byte before the record ends and parses to a
positive integer; when no such terminated positive run exists — including
when the only digit run extends to the final byte of the record — the
fallback id `recordIndex + 1` is used. -/
theorem c8_employee_id (record : List Nat) (index : Nat) (u : UserMapping)
    (h : parseRecord record index = some u) :
    ∃ start, findNameStart record = some start ∧
      u.userId = (firstTerminatedRunId (record.drop (start +
        (trimChars ((nameBytes record start).map (fun b => Char.ofNat b))).length))).getD
          (index + 1) := by
  rw [parseRecord_eq] at h
  split at h
  · exact Option.noConfusion h
  · rename_i start heq
    refine ⟨start, heq, ?_⟩
    split at h
    · exact Option.noConfusion h
    · split at h
      · rename_i uid hscan
        rw [Option.some.injEq] at h
        subst h
        rw [← scanUserId_eq_firstTerminatedRunId, hscan]
        rfl
      · rename_i hscan
        rw [Option.some.injEq] at h
        subst h
        rw [← scanUserId_eq_firstTerminatedRunId, hscan]
        rfl

/-- C8 counterexample.  In `trailingRunRecord` the only digit run is the
digit `'7'` sitting in the very last byte; the claim would extract id 7, but
the record parses with the fallback id `0 + 1 = 1` because the loop never
commits a run that is still open when the record ends. -/
theorem c8_counterexample :
    parseRecord trailingRunRecord 0 = some ⟨1, "AB"⟩ ∧
    trailingRunRecord.getLast? = some 55 ∧
    isDigitByte 55 = true ∧
    digitsVal [55] = 7 ∧
    (1 : Nat) ≠ 7 :=
  ⟨by decide, by decide, by decide, by decide, by decide⟩

theorem c8_witness :
    ∃ start, findNameStart terminatedRunRecord = some start ∧
      (UserMapping.mk 7 "AB").userId =
        (firstTerminatedRunId (terminatedRunRecord.drop (start +
          (trimChars ((nameBytes terminatedRunRecord start).map
            (fun b => Char.ofNat b))).length))).getD (0 + 1) :=
  c8_employee_id terminatedRunRecord 0 ⟨7, "AB"⟩ (by decide)

/-! ## Claim C9: the directory parser's one hard failure -/

theorem mapSet_ne_nil (m : List (Nat × String)) (k : Nat) (v : String) :
    mapSet m k v ≠ [] := by
  unfold mapSet
  split
  · rename_i hany
    intro hc
    rw [List.map_eq_nil_iff] at hc
    subst hc
    simp at hany
  · intro hc
    have := congrArg List.length hc
    simp at this

theorem parseStep_none (f : Nat → Option UserMapping) (m : List (Nat × String))
    (i : Nat) (hf : f i = none) : parseStep f m i = m := by
  unfold parseStep
  rw [hf]

theorem parseStep_some (f : Nat → Option UserMapping) (m : List (Nat × String))
    (i : Nat) (r : UserMapping) (hf : f i = some r) :
    parseStep f m i = mapSet m r.userId r.userName := by
  unfold parseStep
  rw [hf]

/-- The record loop produces an empty map exactly when it started empty and
every record failed to parse. -/
theorem foldl_parseStep_eq_nil (f : Nat → Option UserMapping) (is : List Nat) :
    ∀ m, (is.foldl (parseStep f) m = [] ↔ (m = [] ∧ ∀ i ∈ is, f i = none)) := by
  induction is with
  | nil => intro m; simp
  | cons a l ih =>
    intro m
    simp only [List.foldl_cons]
    rw [ih (parseStep f m a)]
    cases hf : f a with
    | none =>
      rw [parseStep_none f m a hf]
      constructor
      · rintro ⟨h1, h2⟩
        refine ⟨h1, ?_⟩
        intro i hi
        rcases List.mem_cons.mp hi with rfl | hi
        · exact hf
        · exact h2 i hi
      · rintro ⟨h1, h2⟩
        exact ⟨h1, fun i hi => h2 i (List.mem_cons_of_mem a hi)⟩
    | some r =>
      rw [parseStep_some f m a r hf]
      constructor
      · rintro ⟨hnil, _⟩
        exact absurd hnil (mapSet_ne_nil m r.userId r.userName)
      · rintro ⟨_, hall⟩
        have := hall a (List.mem_cons_self a l)
        rw [hf] at this
        exact Option.noConfusion this

theorem parseUserData_eq (buffer : List Nat) :
    parseUserData buffer =
      (if ((List.range (buffer.length / detectRecordSize buffer.length)).foldl
            (parseStep (fun i => parseRecord
              ((buffer.drop (i * detectRecordSize buffer.length)).take
                (detectRecordSize buffer.length)) i)) []).length = 0 then
        Except.error "No valid user records found in user data file"
      else
        Except.ok ((List.range (buffer.length / detectRecordSize buffer.length)).foldl
          (parseStep (fun i => parseRecord
            ((buffer.drop (i * detectRecordSize buffer.length)).take
              (detectRecordSize buffer.length)) i)) [])) := rfl

/-- C9.  `UserDataParser.parse` raises its "no valid user records" error
exactly when none of the fixed-size records of the buffer parses; as soon as
one record yields a mapping, it returns the (nonempty) id → name map without
error, individually unparseable records being merely skipped. -/
theorem c9_empty_directory (buffer : List Nat) :
    ((∃ e, parseUserData buffer = Except.error e) ↔
      ∀ i, i < buffer.length / detectRecordSize buffer.length →
        parseRecord ((buffer.drop (i * detectRecordSize buffer.length)).take
          (detectRecordSize buffer.length)) i = none) ∧
    (∀ m, parseUserData buffer = Except.ok m → m ≠ []) := by
  rw [parseUserData_eq]
  constructor
  · by_cases hz : ((List.range (buffer.length / detectRecordSize buffer.length)).foldl
        (parseStep (fun i => parseRecord
          ((buffer.drop (i * detectRecordSize buffer.length)).take
            (detectRecordSize buffer.length)) i)) []).length = 0
    · rw [if_pos hz]
      constructor
      · intro _
        have hnil := List.length_eq_zero.mp hz
        have hall := ((foldl_parseStep_eq_nil _ _ []).mp hnil).2
        intro i hi
        exact hall i (List.mem_range.mpr hi)
      · intro _
        exact ⟨_, rfl⟩
    · rw [if_neg hz]
      constructor
      · rintro ⟨e, he⟩
        exact Except.noConfusion he
      · intro hall
        exfalso
        apply hz
        have hnil : (List.range (buffer.length / detectRecordSize buffer.length)).foldl
            (parseStep (fun i => parseRecord
              ((buffer.drop (i * detectRecordSize buffer.length)).take
                (detectRecordSize buffer.length)) i)) [] = [] := by
          rw [foldl_parseStep_eq_nil]
          exact ⟨rfl, fun i hi => hall i (List.mem_range.mp hi)⟩
        rw [hnil]
        rfl
  · intro m hm
    split at hm
    · exact Except.noConfusion hm
    · rename_i hz
      rw [Except.ok.injEq] at hm
      subst hm
      intro hc
      rw [hc] at hz
      simp at hz

/-! ## Witnesses instantiating the conditional claims -/

theorem c1_witness :
    ∃ e lt : CivilDate,
      e ∈ witnessRecords.map (fun r => r.date) ∧
      lt ∈ witnessRecords.map (fun r => r.date) ∧
      (∀ r ∈ witnessRecords, rata e ≤ rata r.date ∧ rata r.date ≤ rata lt) ∧
      ((calculateUserAttendance 5 witnessRecords witnessSettings).dailyRecords.map
          (fun r => r.date)).map rata =
        List.range' (rata (monthStartOf e))
          (rata (monthEndOf lt) + 1 - rata (monthStartOf e)) ∧
      ((calculateUserAttendance 5 witnessRecords witnessSettings).dailyRecords.map
          (fun r => r.date)).Nodup ∧
      ∀ dd : CivilDate, dd.Valid → rata (monthStartOf e) ≤ rata dd →
        rata dd ≤ rata (monthEndOf lt) →
        ((calculateUserAttendance 5 witnessRecords witnessSettings).dailyRecords.map
          (fun r => r.date)).count dd = 1 :=
  c1_calendar_completeness 5 witnessRecords witnessSettings (by decide) (by decide)

theorem c2_witness :
    (witnessDaily.status = AttendanceStatus.PRESENT ∨
      witnessDaily.status = AttendanceStatus.ABSENT ∨
      witnessDaily.status = AttendanceStatus.INCOMPLETE ∨
      witnessDaily.status = AttendanceStatus.COMP) ∧
    (witnessDaily.status = AttendanceStatus.PRESENT ↔
      witnessDaily.punches.length % 2 = 0 ∧ 0 < witnessDaily.punches.length) ∧
    (witnessDaily.status = AttendanceStatus.INCOMPLETE ↔
      witnessDaily.punches.length % 2 = 1) ∧
    (witnessDaily.status = AttendanceStatus.ABSENT ↔ witnessDaily.punches.length = 0) ∧
    witnessDaily.punches.length = (recordsForDate witnessRecords witnessDaily.date).length :=
  c2_status_partition 5 witnessRecords witnessSettings witnessDaily (by decide)

theorem c3_witness :
    List.Pairwise (fun a b => instKey a ≤ instKey b) (sortByTimestamp witnessRecordsTwo) ∧
    (sortByTimestamp witnessRecordsTwo).length = witnessRecordsTwo.length ∧
    0 < witnessRecordsTwo.length ∧
    (calculateDailyAttendance ⟨2025, 12, 1⟩ witnessRecordsTwo witnessSettings).totalHours * 60 +
        (calculateDailyAttendance ⟨2025, 12, 1⟩ witnessRecordsTwo
          witnessSettings).totalMinutes =
      specPairSum (sortByTimestamp witnessRecordsTwo) ∧
    0 ≤ specPairSum (sortByTimestamp witnessRecordsTwo) :=
  c3_duration ⟨2025, 12, 1⟩ witnessRecordsTwo witnessSettings (by decide)

theorem c4_witness :
    (calculateDailyAttendance ⟨2025, 12, 1⟩ witnessRecordsTwo
        witnessSettings).punches.length = witnessRecordsTwo.length ∧
    0 < witnessRecordsTwo.length ∧
    ∀ i (hi : i < (calculateDailyAttendance ⟨2025, 12, 1⟩ witnessRecordsTwo
        witnessSettings).punches.length),
      ((calculateDailyAttendance ⟨2025, 12, 1⟩ witnessRecordsTwo
          witnessSettings).punches[i]).type =
        (if i % 2 = 0 then PunchType.IN else PunchType.OUT) ∧
      (((calculateDailyAttendance ⟨2025, 12, 1⟩ witnessRecordsTwo
          witnessSettings).punches[i]).isPaired = true ↔
        (i % 2 = 1 ∨ (i % 2 = 0 ∧ i + 1 < witnessRecordsTwo.length))) ∧
      (witnessRecordsTwo.length % 2 = 0 →
        ((calculateDailyAttendance ⟨2025, 12, 1⟩ witnessRecordsTwo
          witnessSettings).punches[i]).isPaired = true) ∧
      (witnessRecordsTwo.length % 2 = 1 →
        (((calculateDailyAttendance ⟨2025, 12, 1⟩ witnessRecordsTwo
            witnessSettings).punches[i]).isPaired = true ↔
          i + 1 ≠ witnessRecordsTwo.length)) :=
  c4_pairing ⟨2025, 12, 1⟩ witnessRecordsTwo witnessSettings (by decide)

theorem c5_witness :
    (witnessDailyTwo.isLate = true ↔
      witnessDailyTwo.status = AttendanceStatus.PRESENT ∧
        optTimeMinutes witnessDailyTwo.firstIn >
          witnessSettings.workStartMinutes + witnessSettings.lateThresholdMinutes) ∧
    (witnessDailyTwo.isEarlyOut = true ↔
      witnessDailyTwo.status = AttendanceStatus.PRESENT ∧
        optTimeMinutes witnessDailyTwo.lastOut <
          witnessSettings.workEndMinutes - witnessSettings.earlyOutThresholdMinutes) ∧
    (witnessDailyTwo.overtime =
      if witnessDailyTwo.status = AttendanceStatus.PRESENT then
        max 0 ((witnessDailyTwo.totalHours * 60 + witnessDailyTwo.totalMinutes) -
          (witnessSettings.workEndMinutes - witnessSettings.workStartMinutes))
      else 0) ∧
    (witnessDailyTwo.status = AttendanceStatus.PRESENT →
      witnessDailyTwo.firstIn.isSome = true ∧ witnessDailyTwo.lastOut.isSome = true) :=
  c5_flags 5 witnessRecordsTwo witnessSettings witnessDailyTwo (by decide)

end Payroll
